import Mathlib

/-!
Verification development for the tree-diff (reconciliation) engine described by
this repository's design material, plus the reducer of `src/App.jsx`.

The repository's reconciliation algorithm exists only as a prose description
(`src/unnamed/part_000`), so the diff engine below is modelled from the
specification's design-level contract; the reducer is embedded directly from
the JavaScript source.
-/

set_option autoImplicit false

namespace RFib

mutual
/-- Modelled from the spec: the Node model of section 3/4.1 — a labeled, ordered
tree with a `type` tag, an unordered attribute mapping (represented as an
association list with distinct names for well-formed nodes), an optional
per-sibling `key`, and an ordered list of children. The repository has no node
datatype in code; only the prose tutorial describes it. The child list is a
mutually inductive `Forest` so that size computations stay structural. -/
inductive Node : Type where
  | mk (type : String) (attributes : List (String × String)) (key : Option String)
       (children : Forest)
inductive Forest : Type where
  | nil
  | cons (hd : Node) (tl : Forest)
end

def Forest.toList : Forest → List Node
  | .nil => []
  | .cons x xs => x :: Forest.toList xs

def Forest.ofList : List Node → Forest
  | [] => .nil
  | x :: xs => .cons x (Forest.ofList xs)

/-- Build a node from a child list. -/
def node (t : String) (a : List (String × String)) (k : Option String)
    (c : List Node) : Node :=
  .mk t a k (.ofList c)

def Node.type : Node → String
  | .mk t _ _ _ => t

def Node.attributes : Node → List (String × String)
  | .mk _ a _ _ => a

def Node.key : Node → Option String
  | .mk _ _ k _ => k

def Node.children : Node → List Node
  | .mk _ _ _ c => c.toList

def Node.withAttrs : Node → List (String × String) → Node
  | .mk t _ k c, a => .mk t a k c

def Node.withChildren : Node → List Node → Node
  | .mk t a k _, c => .mk t a k (.ofList c)

mutual
/-- The size of a tree: the number of its nodes. -/
def Node.sz : Node → Nat
  | .mk _ _ _ c => 1 + Forest.sz c
def Forest.sz : Forest → Nat
  | .nil => 0
  | .cons x xs => Node.sz x + Forest.sz xs
end

/-- The total size of a list of trees. -/
def szL (l : List Node) : Nat :=
  (l.map Node.sz).sum

/-- Modelled from the spec: the five edit operations of section 3. The spec's
application contract ("applies each operation against a live target in order")
requires each operation to locate its target, which we make explicit as a
`path`: the list of child positions leading from the root sibling list to the
sibling list the operation acts on. All indices are 0-based and are interpreted
sequentially, against the tree as of the moment just before the edit applies. -/
inductive Edit : Type where
  | update  (path : List Nat) (pos : Nat) (node : Node) (changed : List (String × Option String))
  | replace (path : List Nat) (pos : Nat) (oldNode newNode : Node)
  | insert  (path : List Nat) (pos : Nat) (node : Node)
  | delete  (path : List Nat) (pos : Nat) (node : Node)
  | move    (path : List Nat) (node : Node) (src dst : Nat)

def Edit.path : Edit → List Nat
  | .update p _ _ _ => p
  | .replace p _ _ _ => p
  | .insert p _ _ => p
  | .delete p _ _ => p
  | .move p _ _ _ => p

/-- Prepend one child position to an edit's path. -/
def shiftEdit (i : Nat) : Edit → Edit
  | .update p q nd cs => .update (i :: p) q nd cs
  | .replace p q a b => .replace (i :: p) q a b
  | .insert p q nd => .insert (i :: p) q nd
  | .delete p q nd => .delete (i :: p) q nd
  | .move p nd s d => .move (i :: p) nd s d

/-! ### Attribute maps -/

/-- Look up an attribute value by name (first entry wins). -/
def lookupAttr (a : List (String × String)) (m : String) : Option String :=
  (a.find? (fun p => p.1 == m)).map (fun p => p.2)

/-- Modelled from the spec: `diffAttributes` of rule 4 — the mapping of
attribute names whose values differ: added or changed names are paired with
their new value, removed names with `none`. -/
def diffAttributes (o n : List (String × String)) : List (String × Option String) :=
  (n.filter (fun p => !(lookupAttr o p.1 == some p.2))).map (fun p => (p.1, some p.2))
    ++ (o.filter (fun p => lookupAttr n p.1 == none)).map (fun p => (p.1, (none : Option String)))

/-- Set an attribute to a value: replace it in place when present, append otherwise. -/
def setAttr (a : List (String × String)) (m v : String) : List (String × String) :=
  if a.any (fun p => p.1 == m) then a.map (fun p => if p.1 == m then (m, v) else p)
  else a ++ [(m, v)]

/-- Remove an attribute by name. -/
def removeAttr (a : List (String × String)) (m : String) : List (String × String) :=
  a.filter (fun p => !(p.1 == m))

/-- Apply a changed-attributes mapping to an attribute list, in order. -/
def applyAttrChanges (a : List (String × String)) (cs : List (String × Option String)) :
    List (String × String) :=
  cs.foldl (fun acc c =>
    match c.2 with
    | some v => setAttr acc c.1 v
    | none => removeAttr acc c.1) a

/-- Distinctness of the names of an association list. -/
def nodupKeys {α : Type} : List (String × α) → Bool
  | [] => true
  | p :: rest => !(rest.any (fun q => q.1 == p.1)) && nodupKeys rest

/-! ### Positional list operations used by edit application -/

def insIdx {α : Type} : Nat → α → List α → List α
  | 0, a, l => a :: l
  | _+1, _, [] => []
  | i+1, a, x :: xs => x :: insIdx i a xs

def rmIdx {α : Type} : Nat → List α → List α
  | _, [] => []
  | 0, _ :: xs => xs
  | i+1, x :: xs => x :: rmIdx i xs

def setIdx {α : Type} : Nat → α → List α → List α
  | _, _, [] => []
  | 0, a, _ :: xs => a :: xs
  | i+1, a, x :: xs => x :: setIdx i a xs

def modIdx {α : Type} : Nat → (α → α) → List α → List α
  | _, _, [] => []
  | 0, g, x :: xs => g x :: xs
  | i+1, g, x :: xs => x :: modIdx i g xs

/-- Move the element at `src` to position `dst`: remove it, then insert it. -/
def moveIdx {α : Type} (src dst : Nat) (l : List α) : List α :=
  match l.get? src with
  | none => l
  | some x => insIdx dst x (rmIdx src l)

/-! ### Edit application (the consumer contract of section 6) -/

/-- Update a node's children with a sibling-list transformation. -/
def childMap (g : List Node → List Node) (nd : Node) : Node :=
  nd.withChildren (g nd.children)

/-- Apply a sibling-list transformation at the sibling list addressed by a path. -/
def editAt : List Nat → (List Node → List Node) → List Node → List Node
  | [], op, f => op f
  | i :: p, op, f => modIdx i (childMap (editAt p op)) f

/-- The sibling-list transformation denoted by one edit operation. -/
def editOp : Edit → List Node → List Node
  | .update _ pos _ cs, l =>
      modIdx pos (fun nd => nd.withAttrs (applyAttrChanges nd.attributes cs)) l
  | .replace _ pos _ nw, l => setIdx pos nw l
  | .insert _ pos nd, l => insIdx pos nd l
  | .delete _ pos _, l => rmIdx pos l
  | .move _ _ src dst, l => moveIdx src dst l

/-- Modelled from the spec: apply one edit operation against the target forest
(the rendering layer's contract, section 6). -/
def applyEdit (f : List Node) (e : Edit) : List Node :=
  editAt e.path (editOp e) f

/-- Apply an edit sequence operation by operation, in the order produced. -/
def applyScript (f : List Node) (es : List Edit) : List Node :=
  es.foldl applyEdit f

/-! ### Key index and child matching (sections 4.2 and 4.3 rules 5/6) -/

/-- Modelled from the spec: the Key Index of section 4.2 — a mapping from each
declared key to the node's original index, starting at offset `m`. Lookups take
the first entry, so on duplicate keys the first occurrence wins. -/
def keyIndex : Nat → List Node → List (String × Nat)
  | _, [] => []
  | j, nd :: rest =>
    (match nd.key with
     | some k => [(k, j)]
     | none => []) ++ keyIndex (j+1) rest

def lookupKI (ki : List (String × Nat)) (k : String) : Option Nat :=
  (ki.find? (fun p => p.1 == k)).map (fun p => p.2)

/-- A child (as an `enum` entry) counts as unkeyed when it declares no key or is
a later duplicate of an earlier key (first occurrence wins, section 4.2). -/
def notFirstKeyed (l : List Node) (x : Nat × Node) : Bool :=
  match x.2.key with
  | none => true
  | some k => !(lookupKI (keyIndex 0 l) k == some x.1)

/-- The indices of a sibling list's residual unkeyed children, in original order. -/
def residualIdxs (l : List Node) : List Nat :=
  (l.enum.filter (notFirstKeyed l)).map Prod.fst

/-- Modelled from the spec: the child matching of rules 5/6 — for every new
child position, the old child position it is matched with, or `none` when it is
freshly inserted. Keys present in both sibling lists match by key; residual
unkeyed children (and later duplicates) match positionally among themselves in
original order; everything else is an insert (and unmatched old children are
deletes). -/
def matchFn (olds news : List Node) (x : Nat × Node) : Option Nat :=
  match x.2.key with
  | some k =>
    if lookupKI (keyIndex 0 news) k == some x.1 then lookupKI (keyIndex 0 olds) k
    else (residualIdxs olds).get? ((residualIdxs news).findIdx (fun j => j == x.1))
  | none => (residualIdxs olds).get? ((residualIdxs news).findIdx (fun j => j == x.1))

def matchOf (olds news : List Node) : List (Option Nat) :=
  news.enum.map (matchFn olds news)

/-- For each new position, the matched old index paired with its current offset
in the pending working list (the kept old children not yet placed), computed by
simulating the sequential application of the edits. -/
def stepsOf : List Nat → List (Option Nat) → List (Option (Nat × Nat))
  | _, [] => []
  | pend, none :: ms => none :: stepsOf pend ms
  | pend, some j :: ms =>
    some (j, pend.findIdx (fun a => a == j)) :: stepsOf (pend.erase j) ms

/-- The matched old indices, in original order: the working list right after the
deletes have been applied. -/
def pendInit (olds : List Node) (ms : List (Option Nat)) : List Nat :=
  (olds.enum.filter (fun x => (ms.filterMap id).contains x.1)).map Prod.fst

/-- Modelled from the spec: `Delete` edits for the old children left unmatched,
emitted in descending position order so each index is valid at application time. -/
def delsOf (olds : List Node) (ms : List (Option Nat)) : List Edit :=
  ((olds.enum.filter (fun x => !((ms.filterMap id).contains x.1))).map
    (fun x => Edit.delete [] x.1 x.2)).reverse

/-- The old children kept by the matching, in original order: the sibling list
right after all deletes have been applied. -/
def keepOf (olds : List Node) (ms : List (Option Nat)) : List Node :=
  (olds.enum.filter (fun x => (ms.filterMap id).contains x.1)).map Prod.snd

/-- The edits contributed by one new child position: a fresh child is inserted at
its position; a matched child first receives its recursive edits at its current
position `i + r`, then a `Move` when its position changed (rule 6). -/
def stepEdits (rec : Nat → Node → Node → List Edit) (olds : List Node) :
    (Nat × Node) × Option (Nat × Nat) → List Edit
  | ((i, nw), none) => [Edit.insert [] i nw]
  | ((i, nw), some (j, r)) =>
    match olds.get? j with
    | some oNode =>
      rec (i + r) oNode nw ++ (if r == 0 then [] else [Edit.move [] oNode (i + r) i])
    | none => []

/-- The keep/move/insert edits for the new sibling order, iterated in new
sibling order starting at position `i` with pending working list `pend`. -/
def sibScript (rec : Nat → Node → Node → List Edit) (olds : List Node)
    (ms : List (Option Nat)) (news : List Node) (i : Nat) (pend : List Nat) : List Edit :=
  (((List.enumFrom i news).zip (stepsOf pend ms)).map (stepEdits rec olds)).flatten

/-- Modelled from the spec: the multi-child comparison of rules 5/6 — deletes
for unmatched old children first, then the keep/move/insert pass in new sibling
order. `rec` performs the recursive diff of a matched pair. -/
def childScript (rec : Nat → Node → Node → List Edit) (olds news : List Node) : List Edit :=
  delsOf olds (matchOf olds news)
    ++ sibScript rec olds (matchOf olds news) news 0 (pendInit olds (matchOf olds news))

/-- Modelled from the spec: the recursive diff of two present nodes (rules 3/4
of section 4.3), with an explicit recursion budget so the definition is
structural; `diff` always supplies a sufficient budget, and the budget is shown
to be irrelevant beyond the tree size. `pos` is the node's current position in
its sibling list. -/
def diffNodesF : Nat → Nat → Node → Node → List Edit
  | 0, _, _, _ => []
  | fuel+1, pos, o, n =>
    if o.type = n.type then
      (if (diffAttributes o.attributes n.attributes).isEmpty then []
       else [Edit.update [] pos o (diffAttributes o.attributes n.attributes)])
        ++ (childScript (diffNodesF fuel) o.children n.children).map (shiftEdit pos)
    else [Edit.replace [] pos o n]

/-- Modelled from the spec: the top-level diff contract of section 4.3, rules
1-4, over possibly absent trees. The repository describes but does not implement
this procedure. -/
def diff : Option Node → Option Node → List Edit
  | none, none => []
  | none, some n => [Edit.insert [] 0 n]
  | some o, none => [Edit.delete [] 0 o]
  | some o, some n => diffNodesF (Node.sz o + Node.sz n) 0 o n

/-! ### Structural and attribute-wise equality, well-formedness -/

/-- Extensional equality of attribute maps: every name present on either side
looks up to the same value on both sides. -/
def attrsEqv (a b : List (String × String)) : Bool :=
  (a.map Prod.fst ++ b.map Prod.fst).all (fun m => lookupAttr a m == lookupAttr b m)

/-- Structural and attribute-wise equality of trees (fuelled): equal types,
extensionally equal attributes, and pairwise equal children. Keys are matching
metadata, not rendered structure, and are not compared. -/
def nodeEquivF : Nat → Node → Node → Bool
  | 0, _, _ => false
  | fuel+1, a, b =>
    a.type == b.type && attrsEqv a.attributes b.attributes
      && a.children.length == b.children.length
      && (a.children.zip b.children).all (fun p => nodeEquivF fuel p.1 p.2)

/-- Structural and attribute-wise equality of trees. -/
def nodeEquivB (a b : Node) : Bool :=
  nodeEquivF (Node.sz a) a b

/-- Well-formedness (fuelled): every node's attribute list has distinct names. -/
def wfNodeF : Nat → Node → Bool
  | 0, _ => false
  | fuel+1, nd => nodupKeys nd.attributes && nd.children.all (wfNodeF fuel)

/-- Well-formedness of a tree: every node's attribute list has distinct names.
Duplicate keys among siblings are allowed (they are a tolerated edge case). -/
def wfNodeB (nd : Node) : Bool :=
  wfNodeF (Node.sz nd) nd

/-! ### Edit-kind observers and concrete example trees -/

def isInsertE : Edit → Bool
  | .insert _ _ _ => true
  | _ => false

def isDeleteE : Edit → Bool
  | .delete _ _ _ => true
  | _ => false

def isMoveE : Edit → Bool
  | .move _ _ _ _ => true
  | _ => false

/-- The keyed sibling A(key=1) of the keyed-reordering scenario. -/
def exA : Node := node "a" [("t", "A")] (some "1") []

/-- The keyed sibling B(key=2) of the keyed-reordering scenario. -/
def exB : Node := node "b" [("t", "B")] (some "2") []

/-- The old parent with children [A(key=1), B(key=2)]. -/
def exOld : Node := node "ul" [] none [exA, exB]

/-- The new parent with children [B(key=2), A(key=1)]. -/
def exNew : Node := node "ul" [] none [exB, exA]

/-- A sibling list with a duplicate key. -/
def dupA : Node := node "li" [("t", "1")] (some "k") []

/-- A second sibling carrying the same key as `dupA`. -/
def dupB : Node := node "li" [("t", "2")] (some "k") []

/-- A small well-formed tree used as a concrete witness input. -/
def wT1 : Node := node "div" [("x", "1")] none [node "p" [] (some "k") [], dupA]

/-- A second small well-formed tree used as a concrete witness input. -/
def wT2 : Node := node "div" [("x", "2"), ("y", "3")] none [node "sp" [] none []]

/-! ### The reducer of `src/App.jsx` -/

/-- The reducer state shape `{ count: ... }` of `src/App.jsx`. The source's
`count` is a JavaScript number (IEEE-754 binary64); the carrier here is the
integer value it holds — the component only ever stores integer counts — and
`jsRound` below expresses which integers a number represents exactly. -/
structure RState : Type where
  count : Int
deriving DecidableEq

/-- The action shape `{ type: ... }` dispatched to the reducer. -/
structure RAction : Type where
  type : String

/-- The `reducer` function of `src/App.jsx` lines 19-28: increment and decrement
return an updated count, every other action type throws an `Error`. The count
arithmetic here is exact integer arithmetic; `reducerJs` is the same function
with the source's IEEE-754 number arithmetic, which differs from this one only
for counts of magnitude at least 2^53. -/
def reducer (state : RState) (action : RAction) : Except Unit RState :=
  match action.type with
  | "increment" => .ok { count := state.count + 1 }
  | "decrement" => .ok { count := state.count - 1 }
  | _ => .error ()

/-- The spacing (unit in the last place) of the IEEE-754 binary64 doubles at
integer magnitude `a`: 1 up to 2^53 = 9007199254740992, and 2^(b-52) in the
binade from 2^b up to 2^(b+1) above that, computed with an explicit recursion
budget (the magnitude itself is always a sufficient budget). -/
def jsGranF : Nat → Nat → Nat
  | 0, _ => 1
  | fuel+1, a => if a < 9007199254740992 then 1 else 2 * jsGranF fuel (a / 2)

def jsGran (a : Nat) : Nat := jsGranF a a

/-- Round an integer to the nearest integer representable as an IEEE-754
binary64 double, ties to even — the value JavaScript stores for an exact
integer arithmetic result. Integers of magnitude at most 2^53 are representable
exactly; above that, the representable integers are the multiples of the binade
spacing `jsGran`. Magnitudes beyond the finite-double range never arise from
the reducer, whose steps of 1 are absorbed by rounding long before. -/
def jsRound (n : Int) : Int :=
  if n.natAbs ≤ 9007199254740992 then n
  else
    let a := n.natAbs
    let g := jsGran a
    let q := a / g
    let r := a % g
    let h := g / 2
    let q2 := if r < h then q else if h < r then q + 1 else (if q % 2 = 0 then q else q + 1)
    if n < 0 then -((q2 * g : Nat) : Int) else ((q2 * g : Nat) : Int)

/-- The `reducer` function of `src/App.jsx` lines 19-28 with the arithmetic of
the source: JavaScript's `count + 1` and `count - 1` compute the exact result
and round it to the nearest binary64 double (`jsRound`). On counts of magnitude
at most 2^53 - 1 this agrees with `reducer`; at count = 2^53 the increment is
absorbed by the rounding. -/
def reducerJs (state : RState) (action : RAction) : Except Unit RState :=
  match action.type with
  | "increment" => .ok { count := jsRound (state.count + 1) }
  | "decrement" => .ok { count := jsRound (state.count - 1) }
  | _ => .error ()

/-! ### Basic lemmas about nodes and sizes -/

@[simp] theorem toList_ofList (l : List Node) : (Forest.ofList l).toList = l := by
  induction l with
  | nil => rfl
  | cons x xs ih => simp [Forest.ofList, Forest.toList, ih]

@[simp] theorem type_mk (t : String) (a : List (String × String)) (k : Option String)
    (c : Forest) : (Node.mk t a k c).type = t := rfl

@[simp] theorem attributes_mk (t : String) (a : List (String × String)) (k : Option String)
    (c : Forest) : (Node.mk t a k c).attributes = a := rfl

@[simp] theorem key_mk (t : String) (a : List (String × String)) (k : Option String)
    (c : Forest) : (Node.mk t a k c).key = k := rfl

@[simp] theorem children_mk (t : String) (a : List (String × String)) (k : Option String)
    (c : Forest) : (Node.mk t a k c).children = c.toList := rfl

@[simp] theorem type_withChildren (nd : Node) (c : List Node) :
    (nd.withChildren c).type = nd.type := by
  cases nd; rfl

@[simp] theorem attributes_withChildren (nd : Node) (c : List Node) :
    (nd.withChildren c).attributes = nd.attributes := by
  cases nd; rfl

@[simp] theorem key_withChildren (nd : Node) (c : List Node) :
    (nd.withChildren c).key = nd.key := by
  cases nd; rfl

@[simp] theorem children_withChildren (nd : Node) (c : List Node) :
    (nd.withChildren c).children = c := by
  cases nd; simp [Node.withChildren]

@[simp] theorem type_withAttrs (nd : Node) (a : List (String × String)) :
    (nd.withAttrs a).type = nd.type := by
  cases nd; rfl

@[simp] theorem attributes_withAttrs (nd : Node) (a : List (String × String)) :
    (nd.withAttrs a).attributes = a := by
  cases nd; rfl

@[simp] theorem key_withAttrs (nd : Node) (a : List (String × String)) :
    (nd.withAttrs a).key = nd.key := by
  cases nd; rfl

@[simp] theorem children_withAttrs (nd : Node) (a : List (String × String)) :
    (nd.withAttrs a).children = nd.children := by
  cases nd; rfl

theorem withAttrs_self (nd : Node) : nd.withAttrs nd.attributes = nd := by
  cases nd; rfl

theorem ofList_toList : (c : Forest) → Forest.ofList c.toList = c
  | .nil => rfl
  | .cons x xs => by simp [Forest.toList, Forest.ofList, ofList_toList xs]

theorem withChildren_self (nd : Node) : nd.withChildren nd.children = nd := by
  cases nd with
  | mk t a k c => simp [Node.withChildren, Node.children, ofList_toList]

@[simp] theorem szL_nil : szL [] = 0 := rfl

@[simp] theorem szL_cons (x : Node) (xs : List Node) : szL (x :: xs) = x.sz + szL xs := by
  simp [szL]

theorem forest_sz_eq_szL : (c : Forest) → c.sz = szL c.toList
  | .nil => rfl
  | .cons x xs => by simp [Forest.sz, Forest.toList, forest_sz_eq_szL xs]

theorem sz_eq (nd : Node) : nd.sz = 1 + szL nd.children := by
  cases nd with
  | mk t a k c => simp [Node.sz, Node.children, forest_sz_eq_szL]

theorem sz_pos (nd : Node) : 1 ≤ nd.sz := by
  rw [sz_eq]; omega

theorem szL_mem_le {nd : Node} {l : List Node} (h : nd ∈ l) : nd.sz ≤ szL l := by
  induction l with
  | nil => simp at h
  | cons x xs ih =>
    rcases List.mem_cons.1 h with h | h
    · subst h; rw [szL_cons]; omega
    · have := ih h; rw [szL_cons]; omega

theorem sz_children_lt {nd o : Node} (h : nd ∈ o.children) : nd.sz < o.sz := by
  have h1 := szL_mem_le h
  have h2 := sz_eq o
  omega

/-! ### Lemmas about the positional list operations -/

section IdxOps

variable {α : Type}

@[simp] theorem insIdx_zero (a : α) (l : List α) : insIdx 0 a l = a :: l := by
  cases l <;> rfl

@[simp] theorem rmIdx_zero_cons (x : α) (xs : List α) : rmIdx 0 (x :: xs) = xs := rfl

theorem insIdx_append_right (l₁ l₂ : List α) (r : Nat) (a : α) :
    insIdx (l₁.length + r) a (l₁ ++ l₂) = l₁ ++ insIdx r a l₂ := by
  induction l₁ with
  | nil => simp
  | cons x xs ih => simpa [insIdx, Nat.succ_add] using ih

theorem rmIdx_append_right (l₁ l₂ : List α) (r : Nat) :
    rmIdx (l₁.length + r) (l₁ ++ l₂) = l₁ ++ rmIdx r l₂ := by
  induction l₁ with
  | nil => simp
  | cons x xs ih => simpa [rmIdx, Nat.succ_add] using ih

theorem setIdx_append_right (l₁ l₂ : List α) (r : Nat) (a : α) :
    setIdx (l₁.length + r) a (l₁ ++ l₂) = l₁ ++ setIdx r a l₂ := by
  induction l₁ with
  | nil => simp
  | cons x xs ih => simpa [setIdx, Nat.succ_add] using ih

theorem modIdx_append_right (l₁ l₂ : List α) (r : Nat) (g : α → α) :
    modIdx (l₁.length + r) g (l₁ ++ l₂) = l₁ ++ modIdx r g l₂ := by
  induction l₁ with
  | nil => simp
  | cons x xs ih => simpa [modIdx, Nat.succ_add] using ih

theorem get?_append_right' (l₁ l₂ : List α) (r : Nat) :
    (l₁ ++ l₂).get? (l₁.length + r) = l₂.get? r := by
  induction l₁ with
  | nil => simp
  | cons x xs ih => simpa [Nat.succ_add] using ih

theorem setIdx_get_self {l : List α} {r : Nat} {a : α} (h : r < l.length) :
    (setIdx r a l).get? r = some a := by
  induction l generalizing r with
  | nil => simp at h
  | cons x xs ih =>
    cases r with
    | zero => rfl
    | succ r => exact ih (by simpa using h)

theorem setIdx_same {l : List α} {r : Nat} {a : α} (h : l.get? r = some a) :
    setIdx r a l = l := by
  induction l generalizing r with
  | nil => simp at h
  | cons x xs ih =>
    cases r with
    | zero => simp at h; simp [setIdx, h]
    | succ r => simp only [List.get?] at h; simp [setIdx, ih h]

theorem modIdx_eq_setIdx {l : List α} {r : Nat} {a : α} (g : α → α) (h : l.get? r = some a) :
    modIdx r g l = setIdx r (g a) l := by
  induction l generalizing r with
  | nil => simp at h
  | cons x xs ih =>
    cases r with
    | zero => simp at h; simp [modIdx, setIdx, h]
    | succ r => simp only [List.get?] at h; simp [modIdx, setIdx, ih h]

theorem modIdx_modIdx (l : List α) (i : Nat) (g h : α → α) :
    modIdx i h (modIdx i g l) = modIdx i (fun x => h (g x)) l := by
  induction l generalizing i with
  | nil => simp [modIdx]
  | cons x xs ih =>
    cases i with
    | zero => rfl
    | succ i => simp [modIdx, ih]

theorem modIdx_id (l : List α) (i : Nat) : modIdx i (fun x => x) l = l := by
  induction l generalizing i with
  | nil => simp [modIdx]
  | cons x xs ih =>
    cases i with
    | zero => rfl
    | succ i => simp [modIdx, ih]

theorem rmIdx_setIdx (l : List α) (r : Nat) (a : α) :
    rmIdx r (setIdx r a l) = rmIdx r l := by
  induction l generalizing r with
  | nil => simp [setIdx]
  | cons x xs ih =>
    cases r with
    | zero => rfl
    | succ r => simp [setIdx, rmIdx, ih]

theorem setIdx_setIdx (l : List α) (r : Nat) (a b : α) :
    setIdx r b (setIdx r a l) = setIdx r b l := by
  induction l generalizing r with
  | nil => simp [setIdx]
  | cons x xs ih =>
    cases r with
    | zero => rfl
    | succ r => simp [setIdx, ih]

theorem setIdx_cons_of_get {l : List α} {a b : α} (h : l.get? 0 = some a) :
    setIdx 0 b l = b :: rmIdx 0 l := by
  cases l with
  | nil => simp at h
  | cons x xs => rfl

end IdxOps

section EraseFind

theorem findIdx_lt_of_mem {l : List Nat} {j : Nat} (h : j ∈ l) :
    l.findIdx (fun a => a == j) < l.length := by
  induction l with
  | nil => simp at h
  | cons x xs ih =>
    rcases List.mem_cons.1 h with h | h
    · subst h; simp [List.findIdx_cons]
    · by_cases hx : x == j
      · simp [List.findIdx_cons, hx]
      · simp only [List.findIdx_cons, hx, cond_false, List.length_cons]
        exact Nat.succ_lt_succ (ih h)

theorem findIdx_get?_of_mem {l : List Nat} {j : Nat} (h : j ∈ l) :
    l.get? (l.findIdx (fun a => a == j)) = some j := by
  induction l with
  | nil => simp at h
  | cons x xs ih =>
    by_cases hx : x == j
    · simp only [List.findIdx_cons, hx, cond_true]
      simp [beq_iff_eq.mp hx]
    · rcases List.mem_cons.1 h with h | h
      · subst h; simp at hx
      · simp only [List.findIdx_cons, hx, cond_false]
        exact ih h

theorem erase_eq_rmIdx_findIdx {l : List Nat} {j : Nat} (h : j ∈ l) :
    l.erase j = rmIdx (l.findIdx (fun a => a == j)) l := by
  induction l with
  | nil => simp at h
  | cons x xs ih =>
    by_cases hx : x == j
    · simp [List.erase_cons, hx, List.findIdx_cons, rmIdx]
    · rcases List.mem_cons.1 h with h | h
      · subst h; simp at hx
      · simp [List.erase_cons, hx, List.findIdx_cons, rmIdx, ih h]

theorem forall₂_get?_left {α β : Type} {R : α → β → Prop} {l₁ : List α} {l₂ : List β}
    (h : List.Forall₂ R l₁ l₂) {k : Nat} {a : α} (hk : l₁.get? k = some a) :
    ∃ b, l₂.get? k = some b ∧ R a b := by
  induction h generalizing k with
  | nil => simp at hk
  | cons hr _ ih =>
    cases k with
    | zero => simp at hk; subst hk; exact ⟨_, rfl, hr⟩
    | succ k => exact ih hk

theorem forall₂_rmIdx {α β : Type} {R : α → β → Prop} {l₁ : List α} {l₂ : List β}
    (h : List.Forall₂ R l₁ l₂) (k : Nat) :
    List.Forall₂ R (rmIdx k l₁) (rmIdx k l₂) := by
  induction h generalizing k with
  | nil => simp [rmIdx]
  | @cons a b l₁' l₂' hr ht ih =>
    cases k with
    | zero => simpa [rmIdx] using ht
    | succ k => exact List.Forall₂.cons hr (ih k)

end EraseFind

/-! ### Attribute lookup, diff and application -/

section Attrs

theorem lookupAttr_nil (m : String) : lookupAttr [] m = none := rfl

theorem lookupAttr_cons (p : String × String) (a : List (String × String)) (m : String) :
    lookupAttr (p :: a) m = if p.1 == m then some p.2 else lookupAttr a m := by
  by_cases h : p.1 == m <;> simp [lookupAttr, List.find?_cons, h]

theorem lookup_none_of_not_mem_names {a : List (String × String)} {m : String}
    (h : m ∉ a.map Prod.fst) : lookupAttr a m = none := by
  induction a with
  | nil => rfl
  | cons p rest ih =>
    simp only [List.map_cons, List.mem_cons] at h
    push_neg at h
    rw [lookupAttr_cons, if_neg (by simpa [beq_iff_eq] using Ne.symm h.1)]
    exact ih h.2

theorem lookupAttr_mem {a : List (String × String)} {m v : String}
    (h : lookupAttr a m = some v) : (m, v) ∈ a := by
  unfold lookupAttr at h
  rcases Option.map_eq_some'.1 h with ⟨p, hp, hv⟩
  have hmem := List.mem_of_find?_eq_some hp
  have hcond := List.find?_some hp
  have : p.1 = m := beq_iff_eq.mp hcond
  have : p = (m, v) := Prod.ext this hv
  rwa [this] at hmem

theorem lookupAttr_isSome_of_mem {a : List (String × String)} {p : String × String}
    (h : p ∈ a) : ∃ v, lookupAttr a p.1 = some v := by
  induction a with
  | nil => simp at h
  | cons q rest ih =>
    rcases List.mem_cons.1 h with h | h
    · subst h; exact ⟨p.2, by simp [lookupAttr_cons]⟩
    · by_cases hq : q.1 == p.1
      · exact ⟨q.2, by simp [lookupAttr_cons, hq]⟩
      · rcases ih h with ⟨v, hv⟩
        exact ⟨v, by simp [lookupAttr_cons, hq, hv]⟩

theorem nodupKeys_cons {α : Type} (p : String × α) (rest : List (String × α)) :
    nodupKeys (p :: rest) = (!(rest.any (fun q => q.1 == p.1)) && nodupKeys rest) := rfl

theorem nodupKeys_iff {α : Type} (l : List (String × α)) :
    nodupKeys l = true ↔ l.Pairwise (fun p q => p.1 ≠ q.1) := by
  induction l with
  | nil => simp [nodupKeys]
  | cons p rest ih =>
    rw [nodupKeys_cons, List.pairwise_cons]
    simp only [Bool.and_eq_true, Bool.not_eq_true', List.any_eq_false, beq_iff_eq, ih]
    constructor
    · rintro ⟨h1, h2⟩
      exact ⟨fun q hq => Ne.symm (h1 q hq), h2⟩
    · rintro ⟨h1, h2⟩
      exact ⟨fun q hq => Ne.symm (h1 q hq), h2⟩

theorem mem_lookupAttr {a : List (String × String)} {m v : String}
    (h : (m, v) ∈ a) (hnd : nodupKeys a = true) : lookupAttr a m = some v := by
  induction a with
  | nil => simp at h
  | cons p rest ih =>
    rw [nodupKeys_cons] at hnd
    simp only [Bool.and_eq_true, Bool.not_eq_true', List.any_eq_false] at hnd
    rcases List.mem_cons.1 h with h | h
    · subst h; simp [lookupAttr_cons]
    · by_cases hp : p.1 == m
      · exfalso
        have := hnd.1 (m, v) h
        simp [beq_iff_eq] at hp this
        exact this hp.symm
      · rw [lookupAttr_cons, if_neg (by simp_all)]
        exact ih h hnd.2

theorem lookup_setAttr_map {a : List (String × String)} {m : String} (v : String)
    (h : a.any (fun p => p.1 == m) = true) :
    lookupAttr (a.map (fun p => if p.1 == m then (m, v) else p)) m = some v := by
  induction a with
  | nil => simp at h
  | cons p rest ih =>
    cases hp : (p.1 == m) with
    | true => rw [List.map_cons, if_pos hp, lookupAttr_cons]; simp
    | false =>
      simp only [List.any_cons, hp, Bool.false_or] at h
      rw [List.map_cons, if_neg (by simp [hp]), lookupAttr_cons, if_neg (by simp [hp]), ih h]

theorem lookup_append_single {a : List (String × String)} {m : String} (v : String)
    (h : a.any (fun p => p.1 == m) = false) :
    lookupAttr (a ++ [(m, v)]) m = some v := by
  induction a with
  | nil => simp [lookupAttr_cons]
  | cons p rest ih =>
    simp only [List.any_cons, Bool.or_eq_false_iff] at h
    simp only [List.cons_append, lookupAttr_cons]
    rw [if_neg (by simp [h.1]), ih h.2]

theorem lookup_map_set_other {m m' : String} (v : String) (hne : m' ≠ m) :
    ∀ a : List (String × String),
      lookupAttr (a.map (fun p => if p.1 == m then (m, v) else p)) m' = lookupAttr a m' := by
  intro a
  induction a with
  | nil => rfl
  | cons p rest ih =>
    cases hp : (p.1 == m) with
    | true =>
      have hp1 : p.1 = m := beq_iff_eq.mp hp
      rw [List.map_cons, if_pos hp, lookupAttr_cons, lookupAttr_cons,
          if_neg (by simp [beq_iff_eq]; exact fun h => hne h.symm),
          if_neg (by simp [beq_iff_eq, hp1]; exact fun h => hne h.symm), ih]
    | false =>
      rw [List.map_cons, if_neg (by simp [hp]), lookupAttr_cons, lookupAttr_cons, ih]

theorem lookup_append_single_other {m m' : String} (v : String) (hne : m' ≠ m) :
    ∀ a : List (String × String),
      lookupAttr (a ++ [(m, v)]) m' = lookupAttr a m' := by
  intro a
  induction a with
  | nil =>
    simp only [List.nil_append, lookupAttr_cons, lookupAttr_nil]
    rw [if_neg (by simp [beq_iff_eq]; exact fun h => hne h.symm)]
  | cons p rest ih =>
    simp only [List.cons_append, lookupAttr_cons, ih]

theorem lookup_setAttr_self (a : List (String × String)) (m v : String) :
    lookupAttr (setAttr a m v) m = some v := by
  unfold setAttr
  by_cases h : (a.any fun p => p.1 == m) = true
  · rw [if_pos h]; exact lookup_setAttr_map v h
  · rw [if_neg h]; exact lookup_append_single v (Bool.eq_false_iff.mpr h)

theorem lookup_setAttr_other {a : List (String × String)} {m m' : String} (v : String)
    (hne : m' ≠ m) : lookupAttr (setAttr a m v) m' = lookupAttr a m' := by
  unfold setAttr
  split
  · exact lookup_map_set_other v hne a
  · exact lookup_append_single_other v hne a

theorem lookup_removeAttr_self (a : List (String × String)) (m : String) :
    lookupAttr (removeAttr a m) m = none := by
  unfold lookupAttr
  rw [Option.map_eq_none']
  rw [List.find?_eq_none]
  intro p hp
  have := (List.mem_filter.1 hp).2
  simpa using this

theorem lookup_removeAttr_other {a : List (String × String)} {m m' : String}
    (hne : m' ≠ m) : lookupAttr (removeAttr a m) m' = lookupAttr a m' := by
  induction a with
  | nil => rfl
  | cons p rest ih =>
    unfold removeAttr at ih ⊢
    by_cases hp : p.1 == m
    · have hp1 : p.1 = m := beq_iff_eq.mp hp
      rw [List.filter_cons_of_neg (by simp [hp]), lookupAttr_cons,
          if_neg (by simp [beq_iff_eq, hp1]; exact Ne.symm hne), ih]
    · rw [List.filter_cons_of_pos (by simp [hp]), lookupAttr_cons, lookupAttr_cons, ih]

theorem applyAttrChanges_nil (a : List (String × String)) : applyAttrChanges a [] = a := rfl

theorem applyAttrChanges_cons (a : List (String × String)) (c : String × Option String)
    (cs : List (String × Option String)) :
    applyAttrChanges a (c :: cs) =
      applyAttrChanges (match c.2 with
        | some v => setAttr a c.1 v
        | none => removeAttr a c.1) cs := rfl

theorem lookup_apply_not_mem {cs : List (String × Option String)}
    {m : String} (h : ∀ c ∈ cs, c.1 ≠ m) (a : List (String × String)) :
    lookupAttr (applyAttrChanges a cs) m = lookupAttr a m := by
  induction cs generalizing a with
  | nil => rfl
  | cons c cs ih =>
    rw [applyAttrChanges_cons]
    have hc : c.1 ≠ m := h c (List.mem_cons_self c cs)
    have hm : m ≠ c.1 := Ne.symm hc
    rw [ih (fun d hd => h d (List.mem_cons_of_mem c hd))]
    cases hv : c.2 with
    | some v => exact lookup_setAttr_other v hm
    | none => exact lookup_removeAttr_other hm

theorem lookup_apply_nodup {cs : List (String × Option String)} {m : String}
    (hnd : nodupKeys cs = true) (a : List (String × String)) :
    lookupAttr (applyAttrChanges a cs) m =
      match cs.find? (fun c => c.1 == m) with
      | some c => c.2
      | none => lookupAttr a m := by
  induction cs generalizing a with
  | nil => rfl
  | cons c cs ih =>
    rw [nodupKeys_cons] at hnd
    simp only [Bool.and_eq_true, Bool.not_eq_true', List.any_eq_false] at hnd
    rw [applyAttrChanges_cons]
    by_cases hc : ((fun d : String × Option String => d.1 == m) c) = true
    · have hc1 : c.1 = m := beq_iff_eq.mp hc
      rw [@List.find?_cons_of_pos _ (fun d => d.1 == m) c cs hc]
      have hrest : ∀ d ∈ cs, d.1 ≠ m := by
        intro d hd
        have := hnd.1 d hd
        simp only [beq_iff_eq] at this
        rw [← hc1]; exact this
      rw [lookup_apply_not_mem hrest]
      cases hv : c.2 with
      | some v =>
        show lookupAttr (setAttr a c.1 v) m = c.2
        rw [hv, hc1]
        exact lookup_setAttr_self a m v
      | none =>
        show lookupAttr (removeAttr a c.1) m = c.2
        rw [hv, hc1]
        exact lookup_removeAttr_self a m
    · rw [@List.find?_cons_of_neg _ (fun d => d.1 == m) c cs hc, ih hnd.2]
      cases hfind : cs.find? (fun d => d.1 == m) with
      | some d => rfl
      | none =>
        have hm : m ≠ c.1 := by
          intro h; exact hc (by simp [h])
        cases hv : c.2 with
        | some v =>
          show lookupAttr (setAttr a c.1 v) m = lookupAttr a m
          exact lookup_setAttr_other v hm
        | none =>
          show lookupAttr (removeAttr a c.1) m = lookupAttr a m
          exact lookup_removeAttr_other hm

theorem mem_diffAttributes {o n : List (String × String)} {c : String × Option String} :
    c ∈ diffAttributes o n ↔
      ((∃ p, p ∈ n ∧ ¬(lookupAttr o p.1 = some p.2) ∧ c = (p.1, some p.2)) ∨
       (∃ q, q ∈ o ∧ lookupAttr n q.1 = none ∧ c = (q.1, none))) := by
  simp only [diffAttributes, List.mem_append, List.mem_map, List.mem_filter,
    Bool.not_eq_true', beq_iff_eq]
  constructor
  · rintro (⟨p, ⟨hp, hc⟩, he⟩ | ⟨q, ⟨hq, hc⟩, he⟩)
    · exact Or.inl ⟨p, hp, by simpa using hc, he.symm⟩
    · exact Or.inr ⟨q, hq, by simpa using hc, he.symm⟩
  · rintro (⟨p, hp, hc, he⟩ | ⟨q, hq, hc, he⟩)
    · exact Or.inl ⟨p, ⟨hp, by simpa using hc⟩, he.symm⟩
    · exact Or.inr ⟨q, ⟨hq, by simpa using hc⟩, he.symm⟩

theorem nodupKeys_diffAttributes {o n : List (String × String)}
    (ho : nodupKeys o = true) (hn : nodupKeys n = true) :
    nodupKeys (diffAttributes o n) = true := by
  rw [nodupKeys_iff]
  unfold diffAttributes
  rw [List.pairwise_append]
  refine ⟨?_, ?_, ?_⟩
  · rw [List.pairwise_map]
    exact ((nodupKeys_iff n).mp hn).filter _
  · rw [List.pairwise_map]
    exact ((nodupKeys_iff o).mp ho).filter _
  · intro x hx y hy
    rcases List.mem_map.1 hx with ⟨p, hp, hxe⟩
    rcases List.mem_map.1 hy with ⟨q, hq, hye⟩
    have hpn : p ∈ n := (List.mem_filter.1 hp).1
    have hqcond := (List.mem_filter.1 hq).2
    have hqnone : lookupAttr n q.1 = none := by simpa [beq_iff_eq] using hqcond
    subst hxe hye
    simp only
    intro heq
    rcases lookupAttr_isSome_of_mem hpn with ⟨v, hv⟩
    rw [heq] at hv
    rw [hqnone] at hv
    exact Option.noConfusion hv

theorem apply_diffAttributes_lookup {o n : List (String × String)}
    (ho : nodupKeys o = true) (hn : nodupKeys n = true) (m : String) :
    lookupAttr (applyAttrChanges o (diffAttributes o n)) m = lookupAttr n m := by
  rw [lookup_apply_nodup (nodupKeys_diffAttributes ho hn)]
  cases hfind : (diffAttributes o n).find? (fun c => c.1 == m) with
  | some c =>
    have hmem := List.mem_of_find?_eq_some hfind
    have hcond0 :=
      @List.find?_some _ (fun d : String × Option String => d.1 == m) c _ hfind
    have hcond : c.1 = m := beq_iff_eq.mp hcond0
    rcases mem_diffAttributes.1 hmem with ⟨p, hp, _, he⟩ | ⟨q, hq, hqn, he⟩
    · subst he
      simp only at hcond ⊢
      rw [← hcond]
      exact (mem_lookupAttr hp hn).symm
    · subst he
      simp only at hcond ⊢
      rw [← hcond]
      exact hqn.symm
  | none =>
    rw [List.find?_eq_none] at hfind
    show lookupAttr o m = lookupAttr n m
    cases hlm : lookupAttr n m with
    | some v =>
      by_cases hlo : lookupAttr o m = some v
      · rw [hlo]
      · exfalso
        have hmem : ((m, some v) : String × Option String) ∈ diffAttributes o n :=
          mem_diffAttributes.2 (Or.inl ⟨(m, v), lookupAttr_mem hlm, hlo, rfl⟩)
        exact hfind _ hmem (by simp)
    | none =>
      cases hlo : lookupAttr o m with
      | none => rfl
      | some w =>
        exfalso
        have hmem : ((m, (none : Option String)) : String × Option String) ∈ diffAttributes o n :=
          mem_diffAttributes.2 (Or.inr ⟨(m, w), lookupAttr_mem hlo, hlm, rfl⟩)
        exact hfind _ hmem (by simp)

theorem diffAttributes_self {a : List (String × String)} (h : nodupKeys a = true) :
    diffAttributes a a = [] := by
  unfold diffAttributes
  rw [List.append_eq_nil]
  constructor
  · rw [List.map_eq_nil, List.filter_eq_nil]
    intro p hp
    simp [mem_lookupAttr hp h]
  · rw [List.map_eq_nil, List.filter_eq_nil]
    intro p hp
    rcases lookupAttr_isSome_of_mem hp with ⟨v, hv⟩
    simp [hv]

theorem diffAttr_names_iff {o n : List (String × String)}
    (ho : nodupKeys o = true) (hn : nodupKeys n = true) (m : String) :
    m ∈ (diffAttributes o n).map Prod.fst ↔ lookupAttr o m ≠ lookupAttr n m := by
  constructor
  · intro h
    rcases List.mem_map.1 h with ⟨c, hc, hm⟩
    rcases mem_diffAttributes.1 hc with ⟨p, hp, hne, he⟩ | ⟨q, hq, hqn, he⟩
    · subst he
      simp only at hm
      subst hm
      rw [mem_lookupAttr hp hn]
      exact hne
    · subst he
      simp only at hm
      subst hm
      rw [hqn]
      rcases lookupAttr_isSome_of_mem hq with ⟨v, hv⟩
      simp [hv]
  · intro h
    cases hlm : lookupAttr n m with
    | some v =>
      have hmem : ((m, some v) : String × Option String) ∈ diffAttributes o n :=
        mem_diffAttributes.2 (Or.inl ⟨(m, v), lookupAttr_mem hlm, by rw [hlm] at h; exact h, rfl⟩)
      exact List.mem_map.2 ⟨(m, some v), hmem, rfl⟩
    | none =>
      cases hlo : lookupAttr o m with
      | none => rw [hlm, hlo] at h; exact absurd rfl h
      | some w =>
        have hmem : ((m, (none : Option String)) : String × Option String) ∈ diffAttributes o n :=
          mem_diffAttributes.2 (Or.inr ⟨(m, w), lookupAttr_mem hlo, hlm, rfl⟩)
        exact List.mem_map.2 ⟨(m, none), hmem, rfl⟩

theorem attrsEqv_iff {a b : List (String × String)} :
    attrsEqv a b = true ↔ ∀ m, lookupAttr a m = lookupAttr b m := by
  unfold attrsEqv
  rw [List.all_eq_true]
  constructor
  · intro h m
    by_cases hm : m ∈ a.map Prod.fst ++ b.map Prod.fst
    · exact beq_iff_eq.mp (h m hm)
    · rw [List.mem_append] at hm
      push_neg at hm
      rw [lookup_none_of_not_mem_names hm.1, lookup_none_of_not_mem_names hm.2]
  · intro h m _
    exact beq_iff_eq.mpr (h m)

theorem attrsEqv_refl (a : List (String × String)) : attrsEqv a a = true :=
  attrsEqv_iff.mpr (fun _ => rfl)

end Attrs

/-! ### Script application and framing -/

theorem all_congr_mem {α : Type} {l : List α} {p q : α → Bool}
    (h : ∀ x ∈ l, p x = q x) : l.all p = l.all q := by
  induction l with
  | nil => rfl
  | cons x xs ih =>
    simp only [List.all_cons]
    rw [h x (List.mem_cons_self x xs), ih (fun y hy => h y (List.mem_cons_of_mem x hy))]

theorem zip_self_mem {α : Type} {l : List α} {p : α × α} (h : p ∈ l.zip l) : p.1 = p.2 := by
  induction l with
  | nil => simp at h
  | cons x xs ih =>
    rcases List.mem_cons.1 h with h | h
    · rw [h]
    · exact ih h

@[simp] theorem applyScript_nil (f : List Node) : applyScript f [] = f := rfl

theorem applyScript_cons (f : List Node) (e : Edit) (es : List Edit) :
    applyScript f (e :: es) = applyScript (applyEdit f e) es := rfl

theorem applyScript_append (f : List Node) (es₁ es₂ : List Edit) :
    applyScript f (es₁ ++ es₂) = applyScript (applyScript f es₁) es₂ := by
  simp [applyScript, List.foldl_append]

theorem path_shiftEdit (i : Nat) (e : Edit) : (shiftEdit i e).path = i :: e.path := by
  cases e <;> rfl

theorem editOp_shiftEdit (i : Nat) (e : Edit) : editOp (shiftEdit i e) = editOp e := by
  cases e <;> rfl

theorem withChildren_withChildren (nd : Node) (x y : List Node) :
    (nd.withChildren x).withChildren y = nd.withChildren y := by
  cases nd; rfl

theorem applyEdit_shiftEdit (f : List Node) (i : Nat) (e : Edit) :
    applyEdit f (shiftEdit i e) =
      modIdx i (fun nd => nd.withChildren (applyEdit nd.children e)) f := by
  unfold applyEdit
  rw [path_shiftEdit, editOp_shiftEdit]
  show modIdx i (childMap (editAt e.path (editOp e))) f = _
  rfl

theorem applyScript_map_shift (es : List Edit) (f : List Node) (i : Nat) :
    applyScript f (es.map (shiftEdit i)) =
      modIdx i (fun nd => nd.withChildren (applyScript nd.children es)) f := by
  induction es generalizing f with
  | nil =>
    simp only [List.map_nil, applyScript_nil]
    have h : (fun nd : Node => nd.withChildren nd.children) = fun nd => nd := by
      funext nd
      exact withChildren_self nd
    rw [h, modIdx_id]
  | cons e es ih =>
    rw [List.map_cons, applyScript_cons, applyEdit_shiftEdit, ih, modIdx_modIdx]
    congr 1
    funext nd
    rw [withChildren_withChildren, children_withChildren, ← applyScript_cons]

/-! ### Fuel congruence for equivalence and well-formedness -/

theorem nodeEquivF_congr : ∀ (f g : Nat) (a b : Node), Node.sz a ≤ f → Node.sz a ≤ g →
    nodeEquivF f a b = nodeEquivF g a b := by
  intro f
  induction f with
  | zero => intro g a b hf _; have := sz_pos a; omega
  | succ f ih =>
    intro g a b hf hg
    cases g with
    | zero => have := sz_pos a; omega
    | succ g =>
      show nodeEquivF (f+1) a b = nodeEquivF (g+1) a b
      unfold nodeEquivF
      congr 1
      apply all_congr_mem
      intro p hp
      have hp1 : p.1 ∈ a.children := (List.of_mem_zip hp).1
      have hlt : Node.sz p.1 < Node.sz a := sz_children_lt hp1
      exact ih g p.1 p.2 (by omega) (by omega)

theorem nodeEquivF_refl : ∀ (f : Nat) (a : Node), Node.sz a ≤ f → nodeEquivF f a a = true := by
  intro f
  induction f with
  | zero => intro a hf; have := sz_pos a; omega
  | succ f ih =>
    intro a hf
    have hz : ∀ p ∈ a.children.zip a.children, nodeEquivF f p.1 p.2 = true := by
      intro p hp
      have h1 : p.1 = p.2 := zip_self_mem hp
      have hp1 : p.1 ∈ a.children := (List.of_mem_zip hp).1
      have hlt : Node.sz p.1 < Node.sz a := sz_children_lt hp1
      rw [← h1]
      exact ih p.1 (by omega)
    unfold nodeEquivF
    simp only [beq_self_eq_true, attrsEqv_refl, Bool.and_eq_true, List.all_eq_true, true_and]
    intro x hx
    exact hz x hx

theorem nodeEquivB_refl (a : Node) : nodeEquivB a a = true :=
  nodeEquivF_refl _ a (Nat.le_refl _)

theorem wfNodeF_congr : ∀ (f g : Nat) (a : Node), Node.sz a ≤ f → Node.sz a ≤ g →
    wfNodeF f a = wfNodeF g a := by
  intro f
  induction f with
  | zero => intro g a hf _; have := sz_pos a; omega
  | succ f ih =>
    intro g a hf hg
    cases g with
    | zero => have := sz_pos a; omega
    | succ g =>
      show wfNodeF (f+1) a = wfNodeF (g+1) a
      unfold wfNodeF
      congr 1
      apply all_congr_mem
      intro c hc
      have hlt : Node.sz c < Node.sz a := sz_children_lt hc
      exact ih g c (by omega) (by omega)

theorem wfNode_attrs {nd : Node} (h : wfNodeB nd = true) : nodupKeys nd.attributes = true := by
  unfold wfNodeB at h
  have hp := sz_pos nd
  rcases Nat.exists_eq_add_of_le hp with ⟨f, hf⟩
  rw [hf] at h
  rw [Nat.add_comm] at h
  unfold wfNodeF at h
  rw [Bool.and_eq_true] at h
  exact h.1

theorem wfNode_children {nd : Node} (h : wfNodeB nd = true) :
    ∀ c ∈ nd.children, wfNodeB c = true := by
  intro c hc
  unfold wfNodeB at h
  have hp := sz_pos nd
  rcases Nat.exists_eq_add_of_le hp with ⟨f, hf⟩
  rw [hf, Nat.add_comm] at h
  unfold wfNodeF at h
  rw [Bool.and_eq_true] at h
  have h2 := h.2
  rw [List.all_eq_true] at h2
  have h3 := h2 c hc
  have hlt : Node.sz c < Node.sz nd := sz_children_lt hc
  unfold wfNodeB
  rw [wfNodeF_congr (Node.sz c) f c (Nat.le_refl _) (by omega)]
  exact h3

/-! ### Enumeration, key index and matching lemmas -/

section Matching

theorem enumFrom_get? {α : Type} : ∀ (l : List α) (k j : Nat),
    (List.enumFrom k l).get? j = (l.get? j).map (fun a => (k + j, a)) := by
  intro l
  induction l with
  | nil => intro k j; simp
  | cons x xs ih =>
    intro k j
    cases j with
    | zero => simp [List.enumFrom]
    | succ j =>
      show (List.enumFrom (k+1) xs).get? j = _
      rw [ih (k+1) j]
      have he : k + 1 + j = k + (j + 1) := by omega
      rw [he]
      rfl

theorem enum_get? {α : Type} (l : List α) (j : Nat) :
    l.enum.get? j = (l.get? j).map (fun a => (j, a)) := by
  have := enumFrom_get? l 0 j
  simpa [List.enum] using this

theorem mem_enum_get? {α : Type} {l : List α} {x : Nat × α} (h : x ∈ l.enum) :
    l.get? x.1 = some x.2 := by
  rcases List.mem_iff_get?.1 h with ⟨j, hj⟩
  rw [enum_get?] at hj
  cases hx : l.get? j with
  | none => rw [hx] at hj; simp at hj
  | some a =>
    rw [hx] at hj
    simp only [Option.map_some'] at hj
    have hj2 := Option.some.inj hj
    subst hj2
    simpa using hx

theorem get?_mem_enum {α : Type} {l : List α} {j : Nat} {a : α} (h : l.get? j = some a) :
    (j, a) ∈ l.enum := by
  rw [List.mem_iff_get?]
  exact ⟨j, by rw [enum_get?, h]; rfl⟩

theorem mem_enum_lt {α : Type} {l : List α} {x : Nat × α} (h : x ∈ l.enum) :
    x.1 < l.length := by
  have := mem_enum_get? h
  rcases List.get?_eq_some.1 this with ⟨hlt, _⟩
  exact hlt

theorem keyIndex_mem : ∀ (l : List Node) (m : Nat) {k : String} {j : Nat},
    (k, j) ∈ keyIndex m l → m ≤ j ∧ ∃ nd, l.get? (j - m) = some nd ∧ nd.key = some k := by
  intro l
  induction l with
  | nil => intro m k j h; simp [keyIndex] at h
  | cons x xs ih =>
    intro m k j h
    unfold keyIndex at h
    rcases List.mem_append.1 h with h | h
    · cases hk : x.key with
      | none => rw [hk] at h; simp at h
      | some k0 =>
        rw [hk] at h
        simp at h
        refine ⟨by omega, x, ?_, by rw [hk, h.1]⟩
        rw [h.2]
        simp
    · rcases ih (m+1) h with ⟨hle, nd, hget, hkey⟩
      refine ⟨by omega, nd, ?_, hkey⟩
      have hj : j - m = (j - (m+1)) + 1 := by omega
      rw [hj]
      simpa using hget

theorem lookupKI_mem {ki : List (String × Nat)} {k : String} {j : Nat}
    (h : lookupKI ki k = some j) : (k, j) ∈ ki := by
  unfold lookupKI at h
  rcases Option.map_eq_some'.1 h with ⟨p, hp, hv⟩
  have hmem := List.mem_of_find?_eq_some hp
  have hcond := @List.find?_some _ (fun q : String × Nat => q.1 == k) p _ hp
  have h1 : p.1 = k := beq_iff_eq.mp hcond
  have : p = (k, j) := Prod.ext h1 hv
  rwa [this] at hmem

theorem keyIndex_key_of_idx {l : List Node} {k₁ k₂ : String} {j : Nat}
    (h₁ : (k₁, j) ∈ keyIndex 0 l) (h₂ : (k₂, j) ∈ keyIndex 0 l) : k₁ = k₂ := by
  rcases keyIndex_mem l 0 h₁ with ⟨_, nd₁, hg₁, hk₁⟩
  rcases keyIndex_mem l 0 h₂ with ⟨_, nd₂, hg₂, hk₂⟩
  rw [hg₁] at hg₂
  have : nd₁ = nd₂ := Option.some.inj hg₂
  subst this
  rw [hk₁] at hk₂
  exact Option.some.inj hk₂

theorem lookupKI_some_get {l : List Node} {k : String} {j : Nat}
    (h : lookupKI (keyIndex 0 l) k = some j) :
    ∃ nd, l.get? j = some nd ∧ nd.key = some k := by
  rcases keyIndex_mem l 0 (lookupKI_mem h) with ⟨_, nd, hget, hkey⟩
  exact ⟨nd, by simpa using hget, hkey⟩

theorem lookupKI_first : ∀ (l : List Node) (m j : Nat) {nd : Node} {k : String},
    l.get? j = some nd → nd.key = some k →
    (∀ j' nd', j' < j → l.get? j' = some nd' → nd'.key ≠ some k) →
    lookupKI (keyIndex m l) k = some (m + j) := by
  intro l
  induction l with
  | nil => intro m j nd k h; simp at h
  | cons x xs ih =>
    intro m j nd k hget hkey hfirst
    cases j with
    | zero =>
      simp at hget
      subst hget
      unfold keyIndex
      rw [hkey]
      simp [lookupKI, List.find?_cons]
    | succ j =>
      have hx : x.key ≠ some k := hfirst 0 x (Nat.succ_pos j) rfl
      have hrec := ih (m+1) j (by simpa using hget) hkey
        (fun j' nd' hlt hg => hfirst (j'+1) nd' (by omega) (by simpa using hg))
      unfold keyIndex
      cases hk : x.key with
      | none =>
        simp only [List.nil_append]
        rw [hrec]
        congr 1
        omega
      | some k0 =>
        have hk0 : k0 ≠ k := by
          intro h; rw [h] at hk; exact hx hk
        unfold lookupKI
        simp only [List.cons_append, List.nil_append, List.find?_cons]
        have : ((k0, m).1 == k) = false := by
          simp [beq_iff_eq]; exact hk0
        rw [this]
        show lookupKI (keyIndex (m+1) xs) k = some (m + (j+1))
        rw [hrec]
        congr 1
        omega

theorem residual_nodup (l : List Node) : (residualIdxs l).Nodup := by
  unfold residualIdxs
  have hsub : ((l.enum.filter (notFirstKeyed l)).map Prod.fst).Sublist
      (l.enum.map Prod.fst) := (List.filter_sublist _).map _
  rw [List.enum_map_fst] at hsub
  exact hsub.nodup (List.nodup_range _)

theorem mem_residual_iff {l : List Node} {j : Nat} :
    j ∈ residualIdxs l ↔ ∃ nd, l.get? j = some nd ∧ notFirstKeyed l (j, nd) = true := by
  unfold residualIdxs
  constructor
  · intro h
    rcases List.mem_map.1 h with ⟨x, hx, hj⟩
    rcases List.mem_filter.1 hx with ⟨hmem, hcond⟩
    subst hj
    exact ⟨x.2, mem_enum_get? hmem, hcond⟩
  · rintro ⟨nd, hget, hcond⟩
    exact List.mem_map.2 ⟨(j, nd), List.mem_filter.2 ⟨get?_mem_enum hget, hcond⟩, rfl⟩

theorem residual_lt_length {l : List Node} {j : Nat} (h : j ∈ residualIdxs l) :
    j < l.length := by
  rcases mem_residual_iff.1 h with ⟨nd, hget, _⟩
  rcases List.get?_eq_some.1 hget with ⟨hlt, _⟩
  exact hlt

theorem matchOf_length (olds news : List Node) :
    (matchOf olds news).length = news.length := by
  simp [matchOf, List.enum_length]

theorem matchOf_get? (olds news : List Node) (i : Nat) :
    (matchOf olds news).get? i = (news.get? i).map (fun nd => matchFn olds news (i, nd)) := by
  unfold matchOf
  rw [List.get?_map, enum_get?]
  cases news.get? i <;> simp

theorem matchFn_cases {olds news : List Node} {i j : Nat} {nd : Node}
    (hget : news.get? i = some nd) (h : matchFn olds news (i, nd) = some j) :
    (∃ k, nd.key = some k ∧ lookupKI (keyIndex 0 news) k = some i ∧
      lookupKI (keyIndex 0 olds) k = some j) ∨
    (i ∈ residualIdxs news ∧
      (residualIdxs olds).get? ((residualIdxs news).findIdx (fun a => a == i)) = some j) := by
  unfold matchFn at h
  cases hk : nd.key with
  | some k =>
    rw [hk] at h
    simp only at h
    by_cases hc : (lookupKI (keyIndex 0 news) k == some i) = true
    · rw [if_pos hc] at h
      exact Or.inl ⟨k, rfl, beq_iff_eq.mp hc, h⟩
    · rw [if_neg hc] at h
      refine Or.inr ⟨?_, h⟩
      refine mem_residual_iff.2 ⟨nd, hget, ?_⟩
      unfold notFirstKeyed
      rw [hk]
      simpa using hc
  | none =>
    rw [hk] at h
    refine Or.inr ⟨?_, h⟩
    refine mem_residual_iff.2 ⟨nd, hget, ?_⟩
    unfold notFirstKeyed
    rw [hk]

theorem nodup_get?_inj {α : Type} {l : List α} (h : l.Nodup) {a b : Nat} {x : α}
    (ha : l.get? a = some x) (hb : l.get? b = some x) : a = b := by
  induction l generalizing a b with
  | nil => simp at ha
  | cons y ys ih =>
    rw [List.nodup_cons] at h
    cases a with
    | zero =>
      simp at ha
      cases b with
      | zero => rfl
      | succ b =>
        exfalso
        subst ha
        exact h.1 (List.mem_iff_get?.2 ⟨b, hb⟩)
    | succ a =>
      cases b with
      | zero =>
        exfalso
        simp at hb
        subst hb
        exact h.1 (List.mem_iff_get?.2 ⟨a, ha⟩)
      | succ b =>
        have := ih h.2 (a := a) (b := b) ha hb
        omega

theorem matchOf_valid {olds news : List Node} {i j : Nat}
    (h : (matchOf olds news).get? i = some (some j)) : j < olds.length := by
  rw [matchOf_get?] at h
  cases hget : news.get? i with
  | none => rw [hget] at h; simp at h
  | some nd =>
    rw [hget] at h
    simp only [Option.map_some'] at h
    have h2 := Option.some.inj h
    rcases matchFn_cases hget h2 with ⟨k, _, _, hok⟩ | ⟨_, hres⟩
    · rcases lookupKI_some_get hok with ⟨nd', hg, _⟩
      rcases List.get?_eq_some.1 hg with ⟨hlt, _⟩
      exact hlt
    · have : j ∈ residualIdxs olds := List.mem_iff_get?.2 ⟨_, hres⟩
      exact residual_lt_length this

theorem matchOf_inj {olds news : List Node} {i₁ i₂ j : Nat}
    (h₁ : (matchOf olds news).get? i₁ = some (some j))
    (h₂ : (matchOf olds news).get? i₂ = some (some j)) : i₁ = i₂ := by
  rw [matchOf_get?] at h₁ h₂
  cases hg₁ : news.get? i₁ with
  | none => rw [hg₁] at h₁; simp at h₁
  | some nd₁ =>
    cases hg₂ : news.get? i₂ with
    | none => rw [hg₂] at h₂; simp at h₂
    | some nd₂ =>
      rw [hg₁] at h₁; rw [hg₂] at h₂
      simp only [Option.map_some'] at h₁ h₂
      have hf₁ := Option.some.inj h₁
      have hf₂ := Option.some.inj h₂
      rcases matchFn_cases hg₁ hf₁ with ⟨k₁, hk₁, hn₁, ho₁⟩ | ⟨hr₁, hres₁⟩
      · rcases matchFn_cases hg₂ hf₂ with ⟨k₂, hk₂, hn₂, ho₂⟩ | ⟨hr₂, hres₂⟩
        · have hkk : k₁ = k₂ := keyIndex_key_of_idx (lookupKI_mem ho₁) (lookupKI_mem ho₂)
          subst hkk
          rw [hn₁] at hn₂
          exact Option.some.inj hn₂
        · exfalso
          have hjres : j ∈ residualIdxs olds := List.mem_iff_get?.2 ⟨_, hres₂⟩
          rcases mem_residual_iff.1 hjres with ⟨nd, hgetj, hcond⟩
          rcases lookupKI_some_get ho₁ with ⟨nd', hgetj', hkey'⟩
          rw [hgetj] at hgetj'
          have : nd = nd' := Option.some.inj hgetj'
          subst this
          unfold notFirstKeyed at hcond
          rw [hkey'] at hcond
          simp only at hcond
          rw [ho₁] at hcond
          simp at hcond
      · rcases matchFn_cases hg₂ hf₂ with ⟨k₂, hk₂, hn₂, ho₂⟩ | ⟨hr₂, hres₂⟩
        · exfalso
          have hjres : j ∈ residualIdxs olds := List.mem_iff_get?.2 ⟨_, hres₁⟩
          rcases mem_residual_iff.1 hjres with ⟨nd, hgetj, hcond⟩
          rcases lookupKI_some_get ho₂ with ⟨nd', hgetj', hkey'⟩
          rw [hgetj] at hgetj'
          have : nd = nd' := Option.some.inj hgetj'
          subst this
          unfold notFirstKeyed at hcond
          rw [hkey'] at hcond
          simp only at hcond
          rw [ho₂] at hcond
          simp at hcond
        · have hnd := residual_nodup olds
          have hr := nodup_get?_inj hnd hres₁ hres₂
          have hg₁' : (residualIdxs news).get?
              ((residualIdxs news).findIdx (fun a => a == i₁)) = some i₁ :=
            findIdx_get?_of_mem hr₁
          have hg₂' : (residualIdxs news).get?
              ((residualIdxs news).findIdx (fun a => a == i₂)) = some i₂ :=
            findIdx_get?_of_mem hr₂
          rw [hr] at hg₁'
          rw [hg₁'] at hg₂'
          exact Option.some.inj hg₂'

theorem mem_filterMap_id {ms : List (Option Nat)} {j : Nat} :
    j ∈ ms.filterMap id ↔ some j ∈ ms := by
  rw [List.mem_filterMap]
  constructor
  · rintro ⟨o, ho, he⟩
    cases o with
    | none => simp at he
    | some a => simp at he; subst he; exact ho
  · intro h; exact ⟨some j, h, rfl⟩

theorem somes_nodup : ∀ {ms : List (Option Nat)},
    (∀ i₁ i₂ j, ms.get? i₁ = some (some j) → ms.get? i₂ = some (some j) → i₁ = i₂) →
    (ms.filterMap id).Nodup := by
  intro ms
  induction ms with
  | nil => intro _; simp
  | cons o ms ih =>
    intro h
    cases o with
    | none =>
      show (ms.filterMap id).Nodup
      exact ih (fun i₁ i₂ j h₁ h₂ => by
        have := h (i₁+1) (i₂+1) j (by simpa using h₁) (by simpa using h₂)
        omega)
    | some j =>
      show (j :: ms.filterMap id).Nodup
      rw [List.nodup_cons]
      constructor
      · intro hmem
        rcases List.mem_iff_get?.1 (mem_filterMap_id.1 hmem) with ⟨i, hi⟩
        have := h 0 (i+1) j rfl (by simpa using hi)
        omega
      · exact ih (fun i₁ i₂ j' h₁ h₂ => by
          have := h (i₁+1) (i₂+1) j' (by simpa using h₁) (by simpa using h₂)
          omega)

theorem forall₂_map_pair {α β : Type} {P : α → β → Prop} :
    ∀ {E : List (α × β)}, (∀ x ∈ E, P x.1 x.2) →
      List.Forall₂ P (E.map Prod.fst) (E.map Prod.snd) := by
  intro E
  induction E with
  | nil => intro _; simp
  | cons x xs ih =>
    intro h
    exact List.Forall₂.cons (h x (List.mem_cons_self x xs))
      (ih (fun y hy => h y (List.mem_cons_of_mem x hy)))

theorem pendInit_nodup (olds : List Node) (ms : List (Option Nat)) :
    (pendInit olds ms).Nodup := by
  unfold pendInit
  have hsub : ((olds.enum.filter fun x => (ms.filterMap id).contains x.1).map Prod.fst).Sublist
      (olds.enum.map Prod.fst) := (List.filter_sublist _).map _
  rw [List.enum_map_fst] at hsub
  exact hsub.nodup (List.nodup_range _)

theorem pend_keep_forall₂ (olds : List Node) (ms : List (Option Nat)) :
    List.Forall₂ (fun j nd => olds.get? j = some nd) (pendInit olds ms) (keepOf olds ms) := by
  unfold pendInit keepOf
  apply forall₂_map_pair
  intro x hx
  exact mem_enum_get? (List.mem_filter.1 hx).1

theorem mem_pendInit_iff {olds : List Node} {ms : List (Option Nat)} {j : Nat} :
    j ∈ pendInit olds ms ↔ j ∈ ms.filterMap id ∧ j < olds.length := by
  unfold pendInit
  constructor
  · intro h
    rcases List.mem_map.1 h with ⟨x, hx, hj⟩
    rcases List.mem_filter.1 hx with ⟨hmem, hcond⟩
    subst hj
    exact ⟨List.elem_iff.1 hcond, mem_enum_lt hmem⟩
  · rintro ⟨hmem, hlt⟩
    cases hget : olds.get? j with
    | none =>
      exfalso
      rw [List.get?_eq_none] at hget
      omega
    | some nd =>
      refine List.mem_map.2 ⟨(j, nd), List.mem_filter.2 ⟨get?_mem_enum hget, ?_⟩, rfl⟩
      exact List.elem_iff.2 hmem

theorem pendInit_perm {olds news : List Node} :
    (pendInit olds (matchOf olds news)).Perm ((matchOf olds news).filterMap id) := by
  have hnd : ((matchOf olds news).filterMap id).Nodup :=
    somes_nodup (fun i₁ i₂ j h₁ h₂ => matchOf_inj h₁ h₂)
  apply (List.perm_ext_iff_of_nodup (pendInit_nodup _ _) hnd).2
  intro j
  rw [mem_pendInit_iff]
  constructor
  · rintro ⟨h, _⟩; exact h
  · intro h
    refine ⟨h, ?_⟩
    rcases List.mem_iff_get?.1 (mem_filterMap_id.1 h) with ⟨i, hi⟩
    exact matchOf_valid hi

/-! ### Applying the delete pass -/

theorem applyEdit_delete (f : List Node) (pos : Nat) (nd : Node) :
    applyEdit f (Edit.delete [] pos nd) = rmIdx pos f := rfl

theorem applyScript_delsAux (q : Nat → Bool) : ∀ (l t : List Node),
    applyScript (l ++ t)
      (((l.enum.filter (fun x => !(q x.1))).map (fun x => Edit.delete [] x.1 x.2)).reverse) =
    (l.enum.filter (fun x => q x.1)).map Prod.snd ++ t := by
  intro l
  induction l using List.reverseRecOn with
  | nil => intro t; simp
  | append_singleton l a ih =>
    intro t
    have henum : (l ++ [a]).enum = l.enum ++ [(l.length, a)] := by
      show List.enumFrom 0 (l ++ [a]) = List.enumFrom 0 l ++ [(l.length, a)]
      rw [List.enumFrom_append]
      simp [List.enumFrom]
    rw [henum, List.filter_append, List.filter_append, List.map_append, List.reverse_append]
    cases hq : q l.length with
    | true =>
      have h1 : List.filter (fun x => !(q x.1)) [(l.length, a)] = [] := by
        simp [List.filter, hq]
      have h2 : List.filter (fun x => q x.1) [(l.length, a)] = [(l.length, a)] := by
        simp [List.filter, hq]
      rw [h1, h2]
      simp only [List.map_nil, List.reverse_nil, List.nil_append]
      rw [List.append_assoc]
      rw [ih ([a] ++ t)]
      simp [List.append_assoc]
    | false =>
      have h1 : List.filter (fun x => !(q x.1)) [(l.length, a)] = [(l.length, a)] := by
        simp [List.filter, hq]
      have h2 : List.filter (fun x => q x.1) [(l.length, a)] = [] := by
        simp [List.filter, hq]
      rw [h1, h2]
      simp only [List.map_cons, List.map_nil, List.reverse_cons, List.reverse_nil,
        List.nil_append, List.map_append]
      rw [List.append_assoc]
      show applyScript (l ++ ([a] ++ t))
        (Edit.delete [] l.length a ::
          ((l.enum.filter (fun x => !(q x.1))).map (fun x => Edit.delete [] x.1 x.2)).reverse) = _
      rw [applyScript_cons, applyEdit_delete]
      have hrm : rmIdx l.length (l ++ ([a] ++ t)) = l ++ t := by
        have := rmIdx_append_right l ([a] ++ t) 0
        simpa using this
      rw [hrm, ih t]
      simp

theorem applyScript_delsOf (olds : List Node) (ms : List (Option Nat)) :
    applyScript olds (delsOf olds ms) = keepOf olds ms := by
  have := applyScript_delsAux (fun j => (ms.filterMap id).contains j) olds []
  simpa [delsOf, keepOf] using this

end Matching

/-! ### Unfolding the sibling pass -/

theorem applyEdit_insert (f : List Node) (pos : Nat) (nd : Node) :
    applyEdit f (Edit.insert [] pos nd) = insIdx pos nd f := rfl

theorem applyEdit_replace (f : List Node) (pos : Nat) (a b : Node) :
    applyEdit f (Edit.replace [] pos a b) = setIdx pos b f := rfl

theorem applyEdit_move (f : List Node) (nd : Node) (s d : Nat) :
    applyEdit f (Edit.move [] nd s d) = moveIdx s d f := rfl

theorem applyEdit_update (f : List Node) (pos : Nat) (nd : Node)
    (cs : List (String × Option String)) :
    applyEdit f (Edit.update [] pos nd cs) =
      modIdx pos (fun x => x.withAttrs (applyAttrChanges x.attributes cs)) f := rfl

theorem stepsOf_nil (pend : List Nat) : stepsOf pend [] = [] := by
  unfold stepsOf; rfl

theorem sibScript_nil (R : Nat → Node → Node → List Edit) (olds : List Node)
    (news : List Node) (i : Nat) (pend : List Nat) :
    sibScript R olds [] news i pend = [] := by
  unfold sibScript
  rw [stepsOf_nil]
  simp

theorem sibScript_cons_some (R : Nat → Node → Node → List Edit) (olds : List Node)
    (j : Nat) (ms : List (Option Nat)) (nw : Node) (news : List Node) (i : Nat)
    (pend : List Nat) :
    sibScript R olds (some j :: ms) (nw :: news) i pend =
      stepEdits R olds ((i, nw), some (j, pend.findIdx (fun a => a == j)))
        ++ sibScript R olds ms news (i+1) (pend.erase j) := by
  unfold sibScript
  show ((((i, nw) :: List.enumFrom (i+1) news).zip
    (stepsOf pend (some j :: ms))).map (stepEdits R olds)).flatten = _
  rw [show stepsOf pend (some j :: ms) =
    some (j, pend.findIdx (fun a => a == j)) :: stepsOf (pend.erase j) ms from rfl]
  rw [List.zip_cons_cons, List.map_cons, List.flatten_cons]

theorem sibScript_cons_none (R : Nat → Node → Node → List Edit) (olds : List Node)
    (ms : List (Option Nat)) (nw : Node) (news : List Node) (i : Nat) (pend : List Nat) :
    sibScript R olds (none :: ms) (nw :: news) i pend =
      Edit.insert [] i nw :: sibScript R olds ms news (i+1) pend := by
  unfold sibScript
  show ((((i, nw) :: List.enumFrom (i+1) news).zip
    (stepsOf pend (none :: ms))).map (stepEdits R olds)).flatten = _
  rw [show stepsOf pend (none :: ms) = none :: stepsOf pend ms from rfl]
  rw [List.zip_cons_cons, List.map_cons, List.flatten_cons]
  rfl

theorem stepEdits_some {olds : List Node} {j : Nat} {oNode : Node}
    (R : Nat → Node → Node → List Edit) (i r : Nat) (nw : Node)
    (h : olds.get? j = some oNode) :
    stepEdits R olds ((i, nw), some (j, r)) =
      R (i + r) oNode nw ++ (if r == 0 then [] else [Edit.move [] oNode (i + r) i]) := by
  show (match olds.get? j with
    | some oNode =>
      R (i + r) oNode nw ++ (if r == 0 then [] else [Edit.move [] oNode (i + r) i])
    | none => []) = _
  rw [h]

theorem forall₂_zip_mem {α β : Type} {P : α → β → Prop} :
    ∀ {l₁ : List α} {l₂ : List β}, List.Forall₂ P l₁ l₂ →
      ∀ p ∈ l₁.zip l₂, P p.1 p.2 := by
  intro l₁ l₂ h
  induction h with
  | nil => intro p hp; simp at hp
  | cons hr ht ih =>
    intro p hp
    rcases List.mem_cons.1 hp with hp | hp
    · subst hp; exact hr
    · exact ih p hp

theorem equivB_of_parts {m n : Node} (hty : m.type = n.type)
    (hat : attrsEqv m.attributes n.attributes = true)
    (hch : List.Forall₂ (fun a b => nodeEquivB a b = true) m.children n.children) :
    nodeEquivB m n = true := by
  unfold nodeEquivB
  have hp := sz_pos m
  rcases Nat.exists_eq_add_of_le hp with ⟨f, hf⟩
  rw [hf, Nat.add_comm]
  unfold nodeEquivF
  simp only [Bool.and_eq_true, List.all_eq_true]
  refine ⟨⟨⟨beq_iff_eq.mpr hty, hat⟩, beq_iff_eq.mpr hch.length_eq⟩, ?_⟩
  intro p hp2
  have hpe : nodeEquivB p.1 p.2 = true := forall₂_zip_mem hch p hp2
  have hp1 : p.1 ∈ m.children := (List.of_mem_zip hp2).1
  have hlt : Node.sz p.1 < Node.sz m := sz_children_lt hp1
  unfold nodeEquivB at hpe
  rw [nodeEquivF_congr f (Node.sz p.1) p.1 p.2 (by omega) (Nat.le_refl _)]
  exact hpe

/-! ### Correctness of the sibling pass and of the node diff -/

theorem sib_correct
    (R : Nat → Node → Node → List Edit) (olds news₀ : List Node)
    (HR : ∀ pos oc nc, oc ∈ olds → nc ∈ news₀ →
      ∀ f : List Node, f.get? pos = some oc →
        ∃ m, applyScript f (R pos oc nc) = setIdx pos m f ∧ nodeEquivB m nc = true) :
    ∀ (ms : List (Option Nat)) (news : List Node) (pend : List Nat)
      (done rest : List Node),
      ms.length = news.length →
      (∀ nw ∈ news, nw ∈ news₀) →
      pend.Nodup →
      pend.Perm (ms.filterMap id) →
      List.Forall₂ (fun j nd => olds.get? j = some nd) pend rest →
      ∃ placed,
        applyScript (done ++ rest) (sibScript R olds ms news done.length pend) =
          done ++ placed ∧
        List.Forall₂ (fun m nw => nodeEquivB m nw = true) placed news := by
  intro ms
  induction ms with
  | nil =>
    intro news pend done rest hlen hsub hnd hperm hfa
    have hnews : news = [] := by
      cases news with
      | nil => rfl
      | cons a b => simp at hlen
    subst hnews
    have hpend : pend = [] := by
      have h0 : ([] : List (Option Nat)).filterMap id = [] := rfl
      rw [h0] at hperm
      exact hperm.eq_nil
    subst hpend
    have hrest : rest = [] := List.forall₂_nil_left_iff.1 hfa
    subst hrest
    exact ⟨[], by rw [sibScript_nil]; rfl, List.Forall₂.nil⟩
  | cons o ms' ih =>
    intro news pend done rest hlen hsub hnd hperm hfa
    cases news with
    | nil => simp at hlen
    | cons nw news' =>
      cases o with
      | none =>
        rw [sibScript_cons_none, applyScript_cons, applyEdit_insert]
        have hins : insIdx done.length nw (done ++ rest) = (done ++ [nw]) ++ rest := by
          have h0 := insIdx_append_right done rest 0 nw
          simp only [Nat.add_zero] at h0
          rw [h0, insIdx_zero]
          simp
        rw [hins]
        have hlen' : ms'.length = news'.length := by simpa using hlen
        have hsub' : ∀ x ∈ news', x ∈ news₀ :=
          fun x hx => hsub x (List.mem_cons_of_mem _ hx)
        have hperm' : pend.Perm (ms'.filterMap id) := by
          simpa [List.filterMap_cons] using hperm
        rcases ih news' pend (done ++ [nw]) rest hlen' hsub' hnd hperm' hfa with
          ⟨placed', happ', hfa'⟩
        rw [show (done ++ [nw]).length = done.length + 1 by simp] at happ'
        refine ⟨nw :: placed', ?_, List.Forall₂.cons (nodeEquivB_refl nw) hfa'⟩
        rw [happ']
        simp
      | some j =>
        rw [sibScript_cons_some]
        have hjf : j ∈ (some j :: ms').filterMap id := by simp [List.filterMap_cons]
        have hj : j ∈ pend := hperm.mem_iff.2 hjf
        have hrlt : pend.findIdx (fun a => a == j) < pend.length := findIdx_lt_of_mem hj
        have hpr : pend.get? (pend.findIdx (fun a => a == j)) = some j :=
          findIdx_get?_of_mem hj
        rcases forall₂_get?_left hfa hpr with ⟨oNode, hrr, hoj⟩
        rw [stepEdits_some R done.length (pend.findIdx (fun a => a == j)) nw hoj]
        have hf : (done ++ rest).get? (done.length + pend.findIdx (fun a => a == j)) =
            some oNode := by
          rw [get?_append_right', hrr]
        have hocm : oNode ∈ olds := List.get?_mem hoj
        have hnwm : nw ∈ news₀ := hsub nw (List.mem_cons_self nw news')
        rcases HR (done.length + pend.findIdx (fun a => a == j)) oNode nw hocm hnwm
          (done ++ rest) hf with ⟨m, happ, heq⟩
        rw [applyScript_append, applyScript_append, happ, setIdx_append_right]
        have hrestlt : pend.findIdx (fun a => a == j) < rest.length := by
          rcases List.get?_eq_some.1 hrr with ⟨hlt, _⟩
          exact hlt
        have hmove : applyScript (done ++ setIdx (pend.findIdx (fun a => a == j)) m rest)
            (if pend.findIdx (fun a => a == j) == 0 then []
             else [Edit.move [] oNode (done.length + pend.findIdx (fun a => a == j))
               done.length]) =
            (done ++ [m]) ++ rmIdx (pend.findIdx (fun a => a == j)) rest := by
          by_cases hr0 : pend.findIdx (fun a => a == j) = 0
          · rw [if_pos (by simp [hr0])]
            rw [hr0] at hrr ⊢
            rw [applyScript_nil, setIdx_cons_of_get hrr]
            simp
          · rw [if_neg (by simpa using hr0)]
            rw [applyScript_cons, applyScript_nil, applyEdit_move]
            unfold moveIdx
            rw [get?_append_right', setIdx_get_self hrestlt]
            show insIdx done.length m
              (rmIdx (done.length + pend.findIdx (fun a => a == j))
                (done ++ setIdx (pend.findIdx (fun a => a == j)) m rest)) = _
            rw [rmIdx_append_right, rmIdx_setIdx]
            have h0 := insIdx_append_right done (rmIdx (pend.findIdx (fun a => a == j)) rest) 0 m
            simp only [Nat.add_zero] at h0
            rw [h0, insIdx_zero]
            simp
        rw [hmove]
        have hnd' : (pend.erase j).Nodup := (List.erase_sublist j pend).nodup hnd
        have hperm' : (pend.erase j).Perm (ms'.filterMap id) := by
          have h1 : pend.Perm (j :: pend.erase j) := List.perm_cons_erase hj
          have h2 : pend.Perm (j :: ms'.filterMap id) := by
            simpa [List.filterMap_cons] using hperm
          exact List.Perm.cons_inv (h1.symm.trans h2)
        have hfa' : List.Forall₂ (fun j nd => olds.get? j = some nd) (pend.erase j)
            (rmIdx (pend.findIdx (fun a => a == j)) rest) := by
          rw [erase_eq_rmIdx_findIdx hj]
          exact forall₂_rmIdx hfa _
        have hlen' : ms'.length = news'.length := by simpa using hlen
        have hsub' : ∀ x ∈ news', x ∈ news₀ :=
          fun x hx => hsub x (List.mem_cons_of_mem _ hx)
        rcases ih news' (pend.erase j) (done ++ [m])
          (rmIdx (pend.findIdx (fun a => a == j)) rest) hlen' hsub' hnd' hperm' hfa' with
          ⟨placed', happ', hfa''⟩
        rw [show (done ++ [m]).length = done.length + 1 by simp] at happ'
        refine ⟨m :: placed', ?_, List.Forall₂.cons heq hfa''⟩
        rw [happ']
        simp

theorem diffNodesF_succ (fuel pos : Nat) (o n : Node) :
    diffNodesF (fuel+1) pos o n =
      if o.type = n.type then
        (if (diffAttributes o.attributes n.attributes).isEmpty then []
         else [Edit.update [] pos o (diffAttributes o.attributes n.attributes)])
          ++ (childScript (diffNodesF fuel) o.children n.children).map (shiftEdit pos)
      else [Edit.replace [] pos o n] := rfl

theorem childScript_eq (R : Nat → Node → Node → List Edit) (olds news : List Node) :
    childScript R olds news =
      delsOf olds (matchOf olds news)
        ++ sibScript R olds (matchOf olds news) news 0 (pendInit olds (matchOf olds news)) :=
  rfl

theorem node_correct : ∀ (fuel : Nat) (o n : Node) (pos : Nat),
    Node.sz o + Node.sz n ≤ fuel →
    wfNodeB o = true → wfNodeB n = true →
    ∀ f : List Node, f.get? pos = some o →
      ∃ m, applyScript f (diffNodesF fuel pos o n) = setIdx pos m f
        ∧ nodeEquivB m n = true := by
  intro fuel
  induction fuel with
  | zero =>
    intro o n pos h
    have h1 := sz_pos o
    have h2 := sz_pos n
    omega
  | succ fuel ih =>
    intro o n pos hsz hwo hwn f hget
    by_cases hty : o.type = n.type
    · rw [diffNodesF_succ, if_pos hty, applyScript_append]
      have hposlt : pos < f.length := (List.get?_eq_some.1 hget).1
      have hU : applyScript f
          (if (diffAttributes o.attributes n.attributes).isEmpty then []
           else [Edit.update [] pos o (diffAttributes o.attributes n.attributes)]) =
          setIdx pos
            (o.withAttrs (applyAttrChanges o.attributes
              (diffAttributes o.attributes n.attributes))) f := by
        by_cases hemp : (diffAttributes o.attributes n.attributes).isEmpty = true
        · rw [if_pos hemp, applyScript_nil]
          have he : diffAttributes o.attributes n.attributes = [] := List.isEmpty_iff.1 hemp
          rw [he, applyAttrChanges_nil, withAttrs_self, setIdx_same hget]
        · rw [if_neg hemp, applyScript_cons, applyScript_nil, applyEdit_update]
          exact modIdx_eq_setIdx _ hget
      rw [hU]
      have hgo' : (setIdx pos
          (o.withAttrs (applyAttrChanges o.attributes
            (diffAttributes o.attributes n.attributes))) f).get? pos =
          some (o.withAttrs (applyAttrChanges o.attributes
            (diffAttributes o.attributes n.attributes))) := setIdx_get_self hposlt
      rw [applyScript_map_shift, modIdx_eq_setIdx _ hgo', setIdx_setIdx]
      have HR : ∀ pos' oc nc, oc ∈ o.children → nc ∈ n.children →
          ∀ f' : List Node, f'.get? pos' = some oc →
            ∃ m, applyScript f' (diffNodesF fuel pos' oc nc) = setIdx pos' m f'
              ∧ nodeEquivB m nc = true := by
        intro pos' oc nc hoc hnc f' hf'
        have h1 : Node.sz oc < Node.sz o := sz_children_lt hoc
        have h2 : Node.sz nc < Node.sz n := sz_children_lt hnc
        exact ih oc nc pos' (by omega) (wfNode_children hwo oc hoc)
          (wfNode_children hwn nc hnc) f' hf'
      rcases sib_correct (diffNodesF fuel) o.children n.children HR
          (matchOf o.children n.children) n.children
          (pendInit o.children (matchOf o.children n.children)) []
          (keepOf o.children (matchOf o.children n.children))
          (matchOf_length _ _) (fun x hx => hx) (pendInit_nodup _ _) pendInit_perm
          (pend_keep_forall₂ _ _) with ⟨placed, happ, hfa⟩
      simp only [List.nil_append, List.length_nil] at happ
      refine ⟨(o.withAttrs (applyAttrChanges o.attributes
        (diffAttributes o.attributes n.attributes))).withChildren placed, ?_, ?_⟩
      · congr 1
        simp only [children_withAttrs]
        rw [childScript_eq, applyScript_append, applyScript_delsOf, happ]
      · apply equivB_of_parts
        · rw [type_withChildren, type_withAttrs]
          exact hty
        · rw [attributes_withChildren, attributes_withAttrs]
          apply attrsEqv_iff.2
          intro mm
          exact apply_diffAttributes_lookup (wfNode_attrs hwo) (wfNode_attrs hwn) mm
        · rw [children_withChildren]
          exact hfa
    · rw [diffNodesF_succ, if_neg hty, applyScript_cons, applyScript_nil, applyEdit_replace]
      exact ⟨n, rfl, nodeEquivB_refl n⟩

/-! ### Self-diff and budget irrelevance -/

theorem stepEdits_noneIdx {olds : List Node} {j : Nat}
    (R : Nat → Node → Node → List Edit) (i r : Nat) (nw : Node)
    (h : olds.get? j = none) :
    stepEdits R olds ((i, nw), some (j, r)) = [] := by
  show (match olds.get? j with
    | some oNode =>
      R (i + r) oNode nw ++ (if r == 0 then [] else [Edit.move [] oNode (i + r) i])
    | none => []) = _
  rw [h]

theorem childScript_congr {R₁ R₂ : Nat → Node → Node → List Edit} (olds news : List Node)
    (h : ∀ pos oc nc, oc ∈ olds → nc ∈ news → R₁ pos oc nc = R₂ pos oc nc) :
    childScript R₁ olds news = childScript R₂ olds news := by
  unfold childScript sibScript
  congr 1
  congr 1
  apply List.map_congr_left
  intro x hx
  have hx1 := (List.of_mem_zip hx).1
  have hnc : x.1.2 ∈ news := List.get?_mem (mem_enum_get? hx1)
  rcases x with ⟨⟨i, nw⟩, st⟩
  cases st with
  | none => rfl
  | some jr =>
    rcases jr with ⟨j, r⟩
    cases hjo : olds.get? j with
    | none => rw [stepEdits_noneIdx R₁ i r nw hjo, stepEdits_noneIdx R₂ i r nw hjo]
    | some oNode =>
      rw [stepEdits_some R₁ i r nw hjo, stepEdits_some R₂ i r nw hjo,
        h (i + r) oNode nw (List.get?_mem hjo) (by simpa using hnc)]

theorem diffNodesF_congr : ∀ (f g : Nat) (pos : Nat) (o n : Node),
    Node.sz o + Node.sz n ≤ f → Node.sz o + Node.sz n ≤ g →
    diffNodesF f pos o n = diffNodesF g pos o n := by
  intro f
  induction f with
  | zero =>
    intro g pos o n hf _
    have := sz_pos o
    have := sz_pos n
    omega
  | succ f ih =>
    intro g pos o n hf hg
    cases g with
    | zero =>
      have := sz_pos o
      have := sz_pos n
      omega
    | succ g =>
      rw [diffNodesF_succ, diffNodesF_succ]
      by_cases hty : o.type = n.type
      · rw [if_pos hty, if_pos hty]
        congr 1
        congr 1
        apply childScript_congr
        intro pos' oc nc hoc hnc
        have h1 : Node.sz oc < Node.sz o := sz_children_lt hoc
        have h2 : Node.sz nc < Node.sz n := sz_children_lt hnc
        exact ih g pos' oc nc (by omega) (by omega)
      · rw [if_neg hty, if_neg hty]

theorem matchFn_self {c : List Node} {x : Nat × Node} (hx : x ∈ c.enum) :
    matchFn c c x = some x.1 := by
  have hget : c.get? x.1 = some x.2 := mem_enum_get? hx
  unfold matchFn
  cases hk : x.2.key with
  | some k =>
    show (if lookupKI (keyIndex 0 c) k == some x.1 then lookupKI (keyIndex 0 c) k
      else (residualIdxs c).get?
        (List.findIdx (fun j => j == x.1) (residualIdxs c))) = some x.1
    by_cases hc : (lookupKI (keyIndex 0 c) k == some x.1) = true
    · rw [if_pos hc]
      exact beq_iff_eq.mp hc
    · rw [if_neg hc]
      have hmem : x.1 ∈ residualIdxs c := by
        refine mem_residual_iff.2 ⟨x.2, hget, ?_⟩
        unfold notFirstKeyed
        rw [hk]
        simpa using hc
      exact findIdx_get?_of_mem hmem
  | none =>
    show (residualIdxs c).get?
      (List.findIdx (fun j => j == x.1) (residualIdxs c)) = some x.1
    have hmem : x.1 ∈ residualIdxs c := by
      refine mem_residual_iff.2 ⟨x.2, hget, ?_⟩
      unfold notFirstKeyed
      rw [hk]
    exact findIdx_get?_of_mem hmem

theorem matchOf_self (c : List Node) : matchOf c c = (List.range c.length).map some := by
  unfold matchOf
  rw [List.map_congr_left (fun x hx => matchFn_self hx)]
  rw [show (fun x : Nat × Node => some x.1) = (some ∘ Prod.fst) from rfl]
  rw [← List.map_map, List.enum_map_fst]

theorem filterMap_id_map_some {α : Type} (l : List α) : (l.map some).filterMap id = l := by
  induction l with
  | nil => rfl
  | cons x xs ih => simp [List.filterMap_cons, ih]

theorem pendInit_self (c : List Node) : pendInit c (matchOf c c) = List.range c.length := by
  unfold pendInit
  rw [matchOf_self, filterMap_id_map_some]
  have hf : (c.enum.filter (fun x => (List.range c.length).contains x.1)) = c.enum := by
    rw [List.filter_eq_self]
    intro x hx
    exact List.elem_iff.2 (List.mem_range.2 (mem_enum_lt hx))
  rw [hf, List.enum_map_fst]

theorem delsOf_self (c : List Node) : delsOf c (matchOf c c) = [] := by
  unfold delsOf
  rw [matchOf_self, filterMap_id_map_some]
  have hf : (c.enum.filter (fun x => !((List.range c.length).contains x.1))) = [] := by
    rw [List.filter_eq_nil]
    intro x hx
    have hlt : x.1 < c.length := mem_enum_lt hx
    simp [List.elem_iff, List.mem_range, hlt]
  rw [hf]
  rfl

theorem sibScript_selfAux (R : Nat → Node → Node → List Edit) (olds : List Node) :
    ∀ (s : List Node) (i : Nat),
      (∀ k nd, s.get? k = some nd → olds.get? (i + k) = some nd ∧ R (i + k) nd nd = []) →
      sibScript R olds ((List.range' i s.length).map some) s i (List.range' i s.length) = [] := by
  intro s
  induction s with
  | nil =>
    intro i h
    rw [show List.range' i ([] : List Node).length = [] from rfl]
    exact sibScript_nil R olds [] i []
  | cons nd s' ih =>
    intro i h
    rw [show (nd :: s').length = s'.length + 1 from rfl, List.range'_succ]
    rw [show ((i :: List.range' (i+1) s'.length).map some) =
      (some i :: (List.range' (i+1) s'.length).map some) from rfl]
    rw [sibScript_cons_some]
    have hfi : (i :: List.range' (i+1) s'.length).findIdx (fun a => a == i) = 0 := by
      simp [List.findIdx_cons]
    have her : (i :: List.range' (i+1) s'.length).erase i = List.range' (i+1) s'.length := by
      simp [List.erase_cons]
    rw [hfi, her]
    have h0 := h 0 nd rfl
    rw [stepEdits_some R i 0 nd (by simpa using h0.1)]
    have hr : R (i + 0) nd nd = [] := h0.2
    rw [hr]
    have hrec := ih (i+1) (fun k nd' hk => by
      have := h (k+1) nd' (by simpa using hk)
      constructor
      · have h1 := this.1
        rw [show i + (k + 1) = (i + 1) + k by omega] at h1
        exact h1
      · have h2 := this.2
        rw [show i + (k + 1) = (i + 1) + k by omega] at h2
        exact h2)
    rw [hrec]
    rfl

theorem diffNodesF_self : ∀ (fuel : Nat) (o : Node) (pos : Nat),
    Node.sz o ≤ fuel → wfNodeB o = true → diffNodesF fuel pos o o = [] := by
  intro fuel
  induction fuel with
  | zero =>
    intro o pos h _
    have := sz_pos o
    omega
  | succ fuel ih =>
    intro o pos hsz hwo
    rw [diffNodesF_succ, if_pos rfl]
    rw [diffAttributes_self (wfNode_attrs hwo)]
    rw [if_pos (show (([] : List (String × Option String)).isEmpty) = true from rfl)]
    have hcs : childScript (diffNodesF fuel) o.children o.children = [] := by
      rw [childScript_eq, delsOf_self, pendInit_self, matchOf_self, List.range_eq_range']
      have h := sibScript_selfAux (diffNodesF fuel) o.children o.children 0 ?_
      · simpa using h
      · intro k nd hk
        refine ⟨by simpa using hk, ?_⟩
        have hmem : nd ∈ o.children := List.get?_mem hk
        have hlt : Node.sz nd < Node.sz o := sz_children_lt hmem
        exact ih nd (0 + k) (by omega) (wfNode_children hwo nd hmem)
    rw [hcs]
    rfl

theorem childScript_self (fuel : Nat) (c : List Node)
    (h : ∀ nd ∈ c, Node.sz nd ≤ fuel ∧ wfNodeB nd = true) :
    childScript (diffNodesF fuel) c c = [] := by
  rw [childScript_eq, delsOf_self, pendInit_self, matchOf_self, List.range_eq_range']
  have hx := sibScript_selfAux (diffNodesF fuel) c c 0 ?_
  · simpa using hx
  · intro k nd hk
    have hmem : nd ∈ c := List.get?_mem hk
    exact ⟨by simpa using hk,
      diffNodesF_self fuel nd (0 + k) (h nd hmem).1 (h nd hmem).2⟩

/-! ### The claims -/

/-- Claim C1: for every pair of well-formed finite trees `old` and `new`,
applying the edit sequence produced by `diff (some old) (some new)`, operation
by operation in the order produced, to a copy of `old` yields a tree that is
structurally and attribute-wise equal to `new` (round-trip/convergence of the
edit script). -/
theorem C1_diff_roundtrip (o n : Node) (ho : wfNodeB o = true) (hn : wfNodeB n = true) :
    ∃ m, applyScript [o] (diff (some o) (some n)) = [m] ∧ nodeEquivB m n = true := by
  rcases node_correct (Node.sz o + Node.sz n) o n 0 (Nat.le_refl _) ho hn [o] rfl with
    ⟨m, happ, heq⟩
  refine ⟨m, ?_, heq⟩
  show applyScript [o] (diffNodesF (Node.sz o + Node.sz n) 0 o n) = [m]
  rw [happ]
  rfl

/-- Witness for claim C1 at a concrete pair of well-formed trees. -/
theorem C1_diff_roundtrip_witness :
    wfNodeB wT1 = true ∧ wfNodeB wT2 = true ∧
      ∃ m, applyScript [wT1] (diff (some wT1) (some wT2)) = [m]
        ∧ nodeEquivB m wT2 = true :=
  ⟨rfl, rfl, C1_diff_roundtrip wT1 wT2 rfl rfl⟩

/-- Claim C2: `diff` is total — for every pair of finite trees the recursion
terminates and yields a well-defined edit script: every recursion budget of at
least the combined tree size produces the same script, namely
`diff (some old) (some new)`, so the budget cutoff is never reached and there
is no fatal error path or aborting branch. -/
theorem C2_diff_total (o n : Node) (fuel : Nat) (h : Node.sz o + Node.sz n ≤ fuel) :
    diffNodesF fuel 0 o n = diff (some o) (some n) := by
  show _ = diffNodesF (Node.sz o + Node.sz n) 0 o n
  exact diffNodesF_congr fuel _ 0 o n h (Nat.le_refl _)

/-- Witness for claim C2 at a concrete pair of trees and budget. -/
theorem C2_diff_total_witness :
    Node.sz wT1 + Node.sz wT2 ≤ 50 ∧ diffNodesF 50 0 wT1 wT2 = diff (some wT1) (some wT2) :=
  ⟨by decide, C2_diff_total wT1 wT2 50 (by decide)⟩

/-- Claim C3: for every pair of present nodes with different types,
`diff` is exactly the single edit `Replace(old, new)`, with zero recursive
edits into the children of either node. -/
theorem C3_type_change (o n : Node) (h : o.type ≠ n.type) :
    diff (some o) (some n) = [Edit.replace [] 0 o n] := by
  show diffNodesF (Node.sz o + Node.sz n) 0 o n = _
  have h1 := sz_pos o
  have h2 := sz_pos n
  rcases Nat.exists_eq_add_of_le (show 1 ≤ Node.sz o + Node.sz n by omega) with ⟨k, hk⟩
  rw [hk, Nat.add_comm 1 k, diffNodesF_succ, if_neg h]

/-- Witness for claim C3 at a concrete pair of differently-typed nodes. -/
theorem C3_type_change_witness :
    exA.type ≠ exB.type ∧ diff (some exA) (some exB) = [Edit.replace [] 0 exA exB] :=
  ⟨by decide, C3_type_change exA exB (by decide)⟩

/-- Claim C4: for present nodes of equal type with equal children and differing
attributes, the diff is a single `Update(old, changedAttributes)`; the changed
attribute names are exactly those whose values were added, changed or removed;
and for same-type nodes in general the diff emits the update part followed by
the recursive child edits. -/
theorem C4_attribute_update (o n : Node) (hty : o.type = n.type)
    (hch : o.children = n.children) (hwo : wfNodeB o = true) (hwn : wfNodeB n = true)
    (hne : diffAttributes o.attributes n.attributes ≠ []) :
    diff (some o) (some n) = [Edit.update [] 0 o (diffAttributes o.attributes n.attributes)]
    ∧ (∀ m, m ∈ (diffAttributes o.attributes n.attributes).map Prod.fst ↔
        lookupAttr o.attributes m ≠ lookupAttr n.attributes m)
    ∧ ∀ (fuel : Nat) (a b : Node), a.type = b.type →
        diffNodesF (fuel+1) 0 a b =
          (if (diffAttributes a.attributes b.attributes).isEmpty then []
           else [Edit.update [] 0 a (diffAttributes a.attributes b.attributes)])
            ++ (childScript (diffNodesF fuel) a.children b.children).map (shiftEdit 0) := by
  refine ⟨?_, fun m => diffAttr_names_iff (wfNode_attrs hwo) (wfNode_attrs hwn) m,
    fun fuel a b h => by rw [diffNodesF_succ, if_pos h]⟩
  show diffNodesF (Node.sz o + Node.sz n) 0 o n = _
  have h1 := sz_pos o
  have h2 := sz_pos n
  rcases Nat.exists_eq_add_of_le (show 1 ≤ Node.sz o + Node.sz n by omega) with ⟨k, hk⟩
  have hkn : Node.sz n ≤ k := by omega
  rw [hk, Nat.add_comm 1 k, diffNodesF_succ, if_pos hty]
  have hemp : ((diffAttributes o.attributes n.attributes).isEmpty) ≠ true := by
    intro hx
    exact hne (List.isEmpty_iff.1 hx)
  rw [if_neg hemp, hch]
  rw [childScript_self k n.children (fun nd hnd => ⟨?_, wfNode_children hwn nd hnd⟩)]
  · simp
  · have := sz_children_lt hnd
    omega

/-- Witness for claim C4 at a concrete same-type, same-children,
differing-attributes pair. -/
theorem C4_attribute_update_witness :
    (node "d" [("x", "1")] none []).type = (node "d" [("x", "2")] none []).type ∧
    (node "d" [("x", "1")] none []).children = (node "d" [("x", "2")] none []).children ∧
    wfNodeB (node "d" [("x", "1")] none []) = true ∧
    wfNodeB (node "d" [("x", "2")] none []) = true ∧
    diffAttributes (node "d" [("x", "1")] none []).attributes
      (node "d" [("x", "2")] none []).attributes ≠ [] ∧
    diff (some (node "d" [("x", "1")] none [])) (some (node "d" [("x", "2")] none [])) =
      [Edit.update [] 0 (node "d" [("x", "1")] none [])
        (diffAttributes (node "d" [("x", "1")] none []).attributes
          (node "d" [("x", "2")] none []).attributes)] :=
  ⟨rfl, rfl, rfl, rfl, by decide,
    (C4_attribute_update (node "d" [("x", "1")] none []) (node "d" [("x", "2")] none [])
      rfl rfl rfl rfl (by decide)).1⟩

/-- Claim C5: for every well-formed tree `T`, diffing `T` against itself yields
the empty edit sequence. -/
theorem C5_self_noop (T : Node) (h : wfNodeB T = true) :
    diff (some T) (some T) = [] := by
  show diffNodesF (Node.sz T + Node.sz T) 0 T T = []
  exact diffNodesF_self _ T 0 (by omega) h

/-- Witness for claim C5 at a concrete well-formed tree. -/
theorem C5_self_noop_witness :
    wfNodeB wT1 = true ∧ diff (some wT1) (some wT1) = [] :=
  ⟨rfl, C5_self_noop wT1 rfl⟩

/-- Claim C6: diffing the sibling lists [A(key=1), B(key=2)] against
[B(key=2), A(key=1)] under a common parent yields no `Insert`, no `Delete`,
and exactly one `Move` (of B from position 1 to position 0). -/
theorem C6_keyed_reorder :
    (diff (some exOld) (some exNew)).filter isInsertE = []
    ∧ (diff (some exOld) (some exNew)).filter isDeleteE = []
    ∧ (diff (some exOld) (some exNew)).filter isMoveE = [Edit.move [0] exB 1 0] :=
  ⟨rfl, rfl, rfl⟩

/-- Claim C7: with duplicate keys among siblings the diff stays well-defined:
the key index resolves the collision first-occurrence-wins, and every later
duplicate lands in the residual pool that is matched positionally. -/
theorem C7_dup_keys (l : List Node) (j₁ j₂ : Nat) (a b : Node) (k : String)
    (h₁ : l.get? j₁ = some a) (hk₁ : a.key = some k)
    (hfirst : ∀ j' nd', j' < j₁ → l.get? j' = some nd' → nd'.key ≠ some k)
    (hlt : j₁ < j₂) (h₂ : l.get? j₂ = some b) (hk₂ : b.key = some k) :
    lookupKI (keyIndex 0 l) k = some j₁ ∧ j₂ ∈ residualIdxs l := by
  have hfst := lookupKI_first l 0 j₁ h₁ hk₁ hfirst
  rw [Nat.zero_add] at hfst
  refine ⟨hfst, ?_⟩
  refine mem_residual_iff.2 ⟨b, h₂, ?_⟩
  show (match b.key with
    | none => true
    | some k0 => !(lookupKI (keyIndex 0 l) k0 == some j₂)) = true
  rw [hk₂]
  show (!(lookupKI (keyIndex 0 l) k == some j₂)) = true
  rw [hfst]
  simp only [Bool.not_eq_true', beq_eq_false_iff_ne, ne_eq, Option.some.injEq]
  omega

/-- Witness for claim C7 at a concrete duplicate-key sibling list. -/
theorem C7_dup_keys_witness :
    lookupKI (keyIndex 0 [dupA, dupB]) "k" = some 0 ∧ 1 ∈ residualIdxs [dupA, dupB] :=
  C7_dup_keys [dupA, dupB] 0 1 dupA dupB "k" rfl rfl
    (fun j' _ h _ => absurd h (Nat.not_lt_zero j')) (by omega) rfl rfl

/-- Claim C8: for every tree `T`, diffing from an absent tree yields exactly the
single top-level `Insert(T)`, and diffing to an absent tree yields exactly the
single top-level `Delete(T)`. -/
theorem C8_absent (T : Node) :
    diff none (some T) = [Edit.insert [] 0 T]
    ∧ diff (some T) none = [Edit.delete [] 0 T] :=
  ⟨rfl, rfl⟩

/-- Claim C9: the reducer returns `{count := s.count + 1}` on action type
"increment", `{count := s.count - 1}` on "decrement", and throws an `Error` on
every other action type; there is no other outcome. -/
theorem C9_reducer (s : RState) :
    reducer s ⟨"increment"⟩ = Except.ok ⟨s.count + 1⟩
    ∧ reducer s ⟨"decrement"⟩ = Except.ok ⟨s.count - 1⟩
    ∧ ∀ t : String, t ≠ "increment" → t ≠ "decrement" →
        reducer s ⟨t⟩ = Except.error () := by
  refine ⟨rfl, rfl, ?_⟩
  intro t h1 h2
  unfold reducer
  split
  · next heq => exact absurd heq h1
  · next heq => exact absurd heq h2
  · rfl

/-- Witness for claim C9 at a concrete state and unknown action type. -/
theorem C9_reducer_witness :
    reducer ⟨0⟩ ⟨"increment"⟩ = Except.ok ⟨1⟩
    ∧ reducer ⟨0⟩ ⟨"reset"⟩ = Except.error () := by
  have h := C9_reducer ⟨0⟩
  exact ⟨h.1, h.2.2 "reset" (by decide) (by decide)⟩

theorem jsRound_id (n : Int) (h : n.natAbs ≤ 9007199254740992) : jsRound n = n := by
  unfold jsRound
  rw [if_pos h]

/-- Counterexample to claim C10 as stated: under the source's number semantics
(IEEE-754 binary64), at count = 2^53 = 9007199254740992 the increment is
absorbed by rounding (2^53 + 1 rounds back to 2^53, ties to even), so
dispatching "increment" then "decrement" returns 2^53 - 1, not the original
count. -/
theorem C10_reducer_inverse_cex :
    Except.bind (reducerJs ⟨9007199254740992⟩ ⟨"increment"⟩)
        (fun t => reducerJs t ⟨"decrement"⟩) = Except.ok ⟨9007199254740991⟩
    ∧ Except.bind (reducerJs ⟨9007199254740992⟩ ⟨"increment"⟩)
        (fun t => reducerJs t ⟨"decrement"⟩) ≠ Except.ok ⟨9007199254740992⟩ := by
  have h1 : Except.bind (reducerJs ⟨9007199254740992⟩ ⟨"increment"⟩)
      (fun t => reducerJs t ⟨"decrement"⟩) = Except.ok ⟨9007199254740991⟩ := rfl
  refine ⟨h1, ?_⟩
  rw [h1]
  intro h
  have h2 := Except.ok.inj h
  have h3 : (9007199254740991 : Int) = 9007199254740992 := congrArg RState.count h2
  omega

/-- Claim C10 (amended): on every state whose count has magnitude at most
2^53 - 1 — the range on which JavaScript number arithmetic on integers is
exact — dispatching "increment" then "decrement" (and vice versa) returns a
state whose count equals the original; outside that range the law fails, the
increment at count = 2^53 being absorbed by rounding. -/
theorem C10_reducer_inverse_amended (s : RState)
    (hlo : -9007199254740991 ≤ s.count) (hhi : s.count ≤ 9007199254740991) :
    Except.bind (reducerJs s ⟨"increment"⟩) (fun t => reducerJs t ⟨"decrement"⟩)
      = Except.ok s
    ∧ Except.bind (reducerJs s ⟨"decrement"⟩) (fun t => reducerJs t ⟨"increment"⟩)
      = Except.ok s := by
  cases s with
  | mk c =>
    have hlo2 : -9007199254740991 ≤ c := hlo
    have hhi2 : c ≤ 9007199254740991 := hhi
    constructor
    · show Except.ok (RState.mk (jsRound (jsRound (c + 1) - 1))) = Except.ok (RState.mk c)
      rw [jsRound_id (c + 1) (by omega)]
      rw [show c + 1 - 1 = c by ring, jsRound_id c (by omega)]
    · show Except.ok (RState.mk (jsRound (jsRound (c - 1) + 1))) = Except.ok (RState.mk c)
      rw [jsRound_id (c - 1) (by omega)]
      rw [show c - 1 + 1 = c by ring, jsRound_id c (by omega)]

/-- Witness for the amended claim C10 at a concrete in-range state. -/
theorem C10_reducer_inverse_amended_witness :
    -9007199254740991 ≤ (RState.mk 5).count ∧ (RState.mk 5).count ≤ 9007199254740991 ∧
    (Except.bind (reducerJs ⟨5⟩ ⟨"increment"⟩) (fun t => reducerJs t ⟨"decrement"⟩)
        = Except.ok ⟨5⟩
      ∧ Except.bind (reducerJs ⟨5⟩ ⟨"decrement"⟩) (fun t => reducerJs t ⟨"increment"⟩)
        = Except.ok ⟨5⟩) :=
  ⟨by decide, by decide, C10_reducer_inverse_amended ⟨5⟩ (by decide) (by decide)⟩

end RFib
